import Mathlib

/-!
# amboy: the adaptive-order classifier and the pgq claiming queries

A shallow embedding of `queue/adaptive_order_storage.go` (the in-memory
classifier `adaptiveOrderItems`) and of the status queries of
`queue/pgq/sql.go`, followed by theorems about them.

Conventions.

* A Go method with a pointer receiver becomes a function from the state
  before the call to the state after it (plus the returned value).
* `context.Context` is observed only through `ctx.Err()`.  A context is
  modelled by the number of further `Err()` checks that still answer `nil`
  (`none`: the context is never cancelled).
* `rand.Perm` is a parameter: a function giving, for a length `n`, the
  permutation of `0 .. n-1` that is drawn.
* A job is observed only through `ID()`, `Status()`, `TimeInfo()` and
  `Dependency().State()`; a `Job` value records the answers of one moment.
-/

namespace amboy

/-! ## Data model -/

namespace dependency

/-- Modelled from the spec: the `dependency` package is not part of the
sources at hand; the spec gives `State` the four values Ready, Blocked,
Unresolved and Passed. -/
inductive State where
  | Ready
  | Passed
  | Blocked
  | Unresolved
  deriving DecidableEq, Repr

end dependency

/-- Modelled from the spec: the part of `amboy.JobStatusInfo` the classifier
reads (`Completed`, `InProgress`). -/
structure JobStatusInfo where
  Completed : Bool
  InProgress : Bool
  deriving DecidableEq, Repr

/-- Modelled from the spec: the part of `amboy.JobTimeInfo` the classifier
reads, namely the answers of the derived predicates `IsDispatchable()`
(now is not before `WaitUntil`) and `IsStale()` (`DispatchBy` is set and has
passed). -/
structure JobTimeInfo where
  IsDispatchable : Bool
  IsStale : Bool
  deriving DecidableEq, Repr

/-- Modelled from the spec: the part of the `amboy.Job` interface the
classifier calls.  `Dependency` holds the answer of `Dependency().State()`. -/
structure Job where
  ID : String
  Status : JobStatusInfo
  TimeInfo : JobTimeInfo
  Dependency : dependency.State
  deriving DecidableEq, Repr

/-- The error value built by `amboy.NewDuplicateJobErrorf`. -/
inductive AmboyError where
  | DuplicateJobError (msg : String)
  deriving DecidableEq, Repr

/-! ## Go maps, as association lists -/

/-- A `map[string]amboy.Job`. -/
abbrev JobMap := List (String × Job)

/-- The map read `m[id]` (value and presence flag in one `Option`). -/
def mapGet (m : JobMap) (id : String) : Option Job :=
  List.lookup id m

/-- The presence flag `_, ok := m[id]`. -/
def mapHas (m : JobMap) (id : String) : Bool :=
  (mapGet m id).isSome

/-- The builtin `delete(m, id)`. -/
def mapDelete (m : JobMap) (id : String) : JobMap :=
  m.filter (fun e => e.1 != id)

/-- The map write `m[id] = j`. -/
def mapSet (m : JobMap) (id : String) (j : Job) : JobMap :=
  (id, j) :: mapDelete m id

/-! ## Contexts and the random source -/

/-- A cancellation context: `none` is never cancelled, `some n` answers `nil`
to the next `n` calls of `Err()` and an error from then on. -/
abbrev Ctx := Option Nat

/-- Whether `ctx.Err() != nil` holds. -/
def ctxErr : Ctx → Bool
  | some 0 => true
  | _ => false

/-- The context after one `Err()` check that answered `nil`. -/
def ctxTick : Ctx → Ctx
  | some (n + 1) => some n
  | c => c

/-- The source of `rand.Perm`: for a length `n`, the permutation drawn. -/
abbrev RandPerm := Nat → List Nat

/-! ## The classifier -/

/-- The struct `adaptiveOrderItems`. -/
structure adaptiveOrderItems where
  jobs : JobMap
  ready : List String
  waiting : List String
  stalled : List String
  completed : List String
  passed : List String
  deriving DecidableEq, Repr

namespace adaptiveOrderItems

/-- The empty classifier. -/
def empty : adaptiveOrderItems :=
  { jobs := [], ready := [], waiting := [], stalled := [], completed := [], passed := [] }

/-- The method `add`.  Returns the state after the call and the error. -/
def add (items : adaptiveOrderItems) (j : Job) : adaptiveOrderItems × Option AmboyError :=
  let id := j.ID
  if mapHas items.jobs id then
    (items, some (AmboyError.DuplicateJobError ("cannot add duplicate job with id '" ++ id ++ "'")))
  else
    let items := { items with jobs := mapSet items.jobs id j }
    if j.Status.Completed then
      ({ items with completed := items.completed ++ [id] }, none)
    else if !j.TimeInfo.IsDispatchable then
      ({ items with waiting := items.waiting ++ [id] }, none)
    else if j.TimeInfo.IsStale then
      ({ items with stalled := items.stalled ++ [id] }, none)
    else
      match j.Dependency with
      | dependency.State.Ready => ({ items with ready := items.ready ++ [id] }, none)
      | dependency.State.Blocked => ({ items with waiting := items.waiting ++ [id] }, none)
      | dependency.State.Unresolved => ({ items with stalled := items.stalled ++ [id] }, none)
      | dependency.State.Passed => ({ items with passed := items.passed ++ [id] }, none)

/-- The loop of `remove`: `new` is the slice built so far, the list is the
rest of `items.completed` still to be visited. -/
def removeLoop (id : String) (items : adaptiveOrderItems) (new : List String) :
    List String → adaptiveOrderItems
  | [] => { items with completed := new }
  | jid :: rest =>
    if id != jid then
      removeLoop id items (new ++ [jid]) rest
    else
      removeLoop id { items with jobs := mapDelete items.jobs id } new rest

/-- The method `remove`. -/
def remove (items : adaptiveOrderItems) (id : String) : adaptiveOrderItems :=
  removeLoop id items [] items.completed

/-- The loop of `updateCompleted`.  On cancellation the method returns before
`items.completed = new`. -/
def updateCompletedLoop (ctx : Ctx) (items : adaptiveOrderItems) (new : List String) :
    List String → adaptiveOrderItems × Ctx
  | [] => ({ items with completed := new }, ctx)
  | id :: rest =>
    if ctxErr ctx then (items, ctx)
    else if !mapHas items.jobs id then
      updateCompletedLoop (ctxTick ctx) items new rest
    else
      updateCompletedLoop (ctxTick ctx) items (new ++ [id]) rest

/-- The method `updateCompleted`. -/
def updateCompleted (ctx : Ctx) (items : adaptiveOrderItems) : adaptiveOrderItems × Ctx :=
  updateCompletedLoop ctx items [] items.completed

/-- The loop of `updatePassed`. -/
def updatePassedLoop (ctx : Ctx) (items : adaptiveOrderItems) (new : List String) :
    List String → adaptiveOrderItems × Ctx
  | [] => ({ items with passed := new }, ctx)
  | id :: rest =>
    if ctxErr ctx then (items, ctx)
    else if !mapHas items.jobs id then
      updatePassedLoop (ctxTick ctx) items new rest
    else
      updatePassedLoop (ctxTick ctx) items (new ++ [id]) rest

/-- The method `updatePassed`. -/
def updatePassed (ctx : Ctx) (items : adaptiveOrderItems) : adaptiveOrderItems × Ctx :=
  updatePassedLoop ctx items [] items.passed

/-- The loop of `updateWaiting`: `items` carries the appends made so far to
the other buckets, `new` is the local slice, the list is the rest of the
range over the old `items.waiting`.  A job whose dependency state is `Passed`
matches none of the three tests and falls out of the loop body. -/
def updateWaitingLoop (ctx : Ctx) (items : adaptiveOrderItems) (new : List String) :
    List String → adaptiveOrderItems × Ctx
  | [] => ({ items with waiting := new }, ctx)
  | id :: rest =>
    if ctxErr ctx then (items, ctx)
    else
      match mapGet items.jobs id with
      | none => updateWaitingLoop (ctxTick ctx) items new rest
      | some job =>
        if job.TimeInfo.IsStale then
          updateWaitingLoop (ctxTick ctx) { items with stalled := items.stalled ++ [id] } new rest
        else if !job.TimeInfo.IsDispatchable then
          updateWaitingLoop (ctxTick ctx) items (new ++ [id]) rest
        else if job.Status.Completed || job.Status.InProgress then
          updateWaitingLoop (ctxTick ctx) { items with completed := items.completed ++ [id] } new rest
        else if job.Dependency = dependency.State.Ready then
          updateWaitingLoop (ctxTick ctx) { items with ready := items.ready ++ [id] } new rest
        else if job.Dependency = dependency.State.Blocked then
          updateWaitingLoop (ctxTick ctx) items (new ++ [id]) rest
        else if job.Dependency = dependency.State.Unresolved then
          updateWaitingLoop (ctxTick ctx) { items with stalled := items.stalled ++ [id] } new rest
        else
          updateWaitingLoop (ctxTick ctx) items new rest

/-- The method `updateWaiting`. -/
def updateWaiting (ctx : Ctx) (items : adaptiveOrderItems) : adaptiveOrderItems × Ctx :=
  updateWaitingLoop ctx items [] items.waiting

/-- The loop of `updateStalled`. -/
def updateStalledLoop (ctx : Ctx) (items : adaptiveOrderItems) (new : List String) :
    List String → adaptiveOrderItems × Ctx
  | [] => ({ items with stalled := new }, ctx)
  | id :: rest =>
    if ctxErr ctx then (items, ctx)
    else
      match mapGet items.jobs id with
      | none => updateStalledLoop (ctxTick ctx) items new rest
      | some job =>
        if job.TimeInfo.IsStale then
          updateStalledLoop (ctxTick ctx) items (new ++ [id]) rest
        else if job.Status.Completed || job.Status.InProgress then
          updateStalledLoop (ctxTick ctx) { items with completed := items.completed ++ [id] } new rest
        else if job.Dependency = dependency.State.Ready then
          updateStalledLoop (ctxTick ctx) { items with ready := items.ready ++ [id] } new rest
        else if job.Dependency = dependency.State.Blocked then
          updateStalledLoop (ctxTick ctx) { items with waiting := items.waiting ++ [id] } new rest
        else if job.Dependency = dependency.State.Unresolved then
          updateStalledLoop (ctxTick ctx) items (new ++ [id]) rest
        else
          updateStalledLoop (ctxTick ctx) items new rest

/-- The method `updateStalled`. -/
def updateStalled (ctx : Ctx) (items : adaptiveOrderItems) : adaptiveOrderItems × Ctx :=
  updateStalledLoop ctx items [] items.stalled

/-- The loop of `updateReady` over `rand.Perm(len(items.ready))`: `i` is the
index of the range, `new` the slice made by `make([]string, len)`, whose
entries start as the empty string and stay so where the loop continues
without assigning. -/
def updateReadyLoop (ctx : Ctx) (items : adaptiveOrderItems) (new : List String) (i : Nat) :
    List Nat → adaptiveOrderItems × Ctx
  | [] => ({ items with ready := new }, ctx)
  | r :: rest =>
    if ctxErr ctx then (items, ctx)
    else if !mapHas items.jobs (items.ready.getD r "") then
      updateReadyLoop (ctxTick ctx) items new (i + 1) rest
    else
      updateReadyLoop (ctxTick ctx) items (new.set i (items.ready.getD r "")) (i + 1) rest

/-- The method `updateReady`. -/
def updateReady (ctx : Ctx) (perm : RandPerm) (items : adaptiveOrderItems) :
    adaptiveOrderItems × Ctx :=
  if items.ready.length > 1 then
    updateReadyLoop ctx items (List.replicate items.ready.length "") 0 (perm items.ready.length)
  else
    (items, ctx)

/-- The method `refilter`. -/
def refilter (ctx : Ctx) (perm : RandPerm) (items : adaptiveOrderItems) :
    adaptiveOrderItems × Ctx :=
  let r1 := updateWaiting ctx items
  let r2 := updateStalled r1.2 r1.1
  updateReady r2.2 perm r2.1

/-- The method `delete`.  Returns the state after the call and the count. -/
def delete (ctx : Ctx) (perm : RandPerm) (items : adaptiveOrderItems) (id : String) :
    adaptiveOrderItems × Nat :=
  if !mapHas items.jobs id then (items, 0)
  else
    let items := { items with jobs := mapDelete items.jobs id }
    let r1 := updateCompleted ctx items
    let r2 := updatePassed r1.2 r1.1
    let r3 := updateWaiting r2.2 r2.1
    let r4 := updateStalled r3.2 r3.1
    let r5 := updateReady r4.2 perm r4.1
    (r5.1, 1)

/-! ### Closed forms of the uncancelled passes

Where each id of `waiting` (of `stalled`) goes in one uncancelled pass.  These
are not part of the program; the theorems below show that the loops compute
them, and the proofs work with them. -/

/-- The destination of an id visited by a pass: one of four buckets, or
nowhere (the id is dropped). -/
inductive Target where
  | drop
  | ready
  | waiting
  | stalled
  | completed
  deriving DecidableEq, Repr

/-- Where one iteration of the `updateWaiting` loop puts `id`. -/
def waitingTarget (jobs : JobMap) (id : String) : Target :=
  match mapGet jobs id with
  | none => Target.drop
  | some job =>
    if job.TimeInfo.IsStale then Target.stalled
    else if !job.TimeInfo.IsDispatchable then Target.waiting
    else if job.Status.Completed || job.Status.InProgress then Target.completed
    else
      match job.Dependency with
      | dependency.State.Ready => Target.ready
      | dependency.State.Blocked => Target.waiting
      | dependency.State.Unresolved => Target.stalled
      | dependency.State.Passed => Target.drop

/-- Where one iteration of the `updateStalled` loop puts `id`. -/
def stalledTarget (jobs : JobMap) (id : String) : Target :=
  match mapGet jobs id with
  | none => Target.drop
  | some job =>
    if job.TimeInfo.IsStale then Target.stalled
    else if job.Status.Completed || job.Status.InProgress then Target.completed
    else
      match job.Dependency with
      | dependency.State.Ready => Target.ready
      | dependency.State.Blocked => Target.waiting
      | dependency.State.Unresolved => Target.stalled
      | dependency.State.Passed => Target.drop

/-- The ids of `l` whose destination under `f` is `t`, in order. -/
def sentTo (f : String → Target) (t : Target) (l : List String) : List String :=
  l.filter (fun id => decide (f id = t))

/-- What one iteration of the `updateReady` loop leaves at its index: the id
`ready[r]` when it is in the job map, the empty string otherwise. -/
def readySlot (items : adaptiveOrderItems) (r : Nat) : String :=
  if mapHas items.jobs (items.ready.getD r "") then items.ready.getD r "" else ""

/-- The uncancelled `updateWaiting` in closed form. -/
def waitingPass (items : adaptiveOrderItems) : adaptiveOrderItems :=
  { items with
      waiting := sentTo (waitingTarget items.jobs) Target.waiting items.waiting,
      stalled := items.stalled ++ sentTo (waitingTarget items.jobs) Target.stalled items.waiting,
      completed :=
        items.completed ++ sentTo (waitingTarget items.jobs) Target.completed items.waiting,
      ready := items.ready ++ sentTo (waitingTarget items.jobs) Target.ready items.waiting }

/-- The uncancelled `updateStalled` in closed form. -/
def stalledPass (items : adaptiveOrderItems) : adaptiveOrderItems :=
  { items with
      stalled := sentTo (stalledTarget items.jobs) Target.stalled items.stalled,
      waiting := items.waiting ++ sentTo (stalledTarget items.jobs) Target.waiting items.stalled,
      completed :=
        items.completed ++ sentTo (stalledTarget items.jobs) Target.completed items.stalled,
      ready := items.ready ++ sentTo (stalledTarget items.jobs) Target.ready items.stalled }

/-- The uncancelled `updateReady` in closed form. -/
def readyPass (perm : RandPerm) (items : adaptiveOrderItems) : adaptiveOrderItems :=
  if items.ready.length > 1 then
    { items with ready := (perm items.ready.length).map (readySlot items) }
  else items

/-- The contract of `rand.Perm`: for every `n` the list drawn is a
permutation of `0 .. n-1`. -/
def validPerm (perm : RandPerm) : Prop :=
  ∀ n, List.Perm (perm n) (List.range n)

/-- A job with the given id and dependency state that is not completed, not
in progress, dispatchable and not stale. -/
def plainJob (id : String) (st : dependency.State) : Job :=
  ⟨id, ⟨false, false⟩, ⟨true, false⟩, st⟩

/-- One observation step: the jobs answer as recorded in `jobs`, then an
uncancelled `refilter` runs with the permutation source `perm`. -/
def refilterWith (items : adaptiveOrderItems) (step : JobMap × RandPerm) : adaptiveOrderItems :=
  (refilter none step.2 { items with jobs := step.1 }).1

/-- A run of observation steps. -/
def refilterRun (items : adaptiveOrderItems) (steps : List (JobMap × RandPerm)) :
    adaptiveOrderItems :=
  steps.foldl refilterWith items

/-- The five buckets, by name. -/
inductive Bucket where
  | ready
  | waiting
  | stalled
  | completed
  | passed
  deriving DecidableEq, Repr

/-- The contents of a bucket. -/
def bucket (items : adaptiveOrderItems) : Bucket → List String
  | Bucket.ready => items.ready
  | Bucket.waiting => items.waiting
  | Bucket.stalled => items.stalled
  | Bucket.completed => items.completed
  | Bucket.passed => items.passed

/-- The classification rule in the words of the spec: completed first, then
not dispatchable, then stale, then by dependency state. -/
def classificationRule (j : Job) : Bucket :=
  if j.Status.Completed then Bucket.completed
  else if !j.TimeInfo.IsDispatchable then Bucket.waiting
  else if j.TimeInfo.IsStale then Bucket.stalled
  else
    match j.Dependency with
    | dependency.State.Ready => Bucket.ready
    | dependency.State.Blocked => Bucket.waiting
    | dependency.State.Unresolved => Bucket.stalled
    | dependency.State.Passed => Bucket.passed

/-- The buckets that list `id`. -/
def bucketsOf (items : adaptiveOrderItems) (id : String) : List Bucket :=
  [Bucket.ready, Bucket.waiting, Bucket.stalled, Bucket.completed, Bucket.passed].filter
    (fun b => decide (id ∈ bucket items b))

/-- The id is listed in exactly one of the five buckets. -/
def inExactlyOneBucket (items : adaptiveOrderItems) (id : String) : Prop :=
  (bucketsOf items id).length = 1

instance (items : adaptiveOrderItems) (id : String) : Decidable (inExactlyOneBucket items id) := by
  unfold inExactlyOneBucket; infer_instance

/-- Every id of the job map is listed in exactly one bucket. -/
def liveInOneBucket (items : adaptiveOrderItems) : Prop :=
  ∀ e ∈ items.jobs, inExactlyOneBucket items e.1

instance (items : adaptiveOrderItems) : Decidable (liveInOneBucket items) := by
  unfold liveInOneBucket; infer_instance

/-- An operation of a run: `add` of a job, or `delete` of an id under an
uncancelled context with the permutation source for its shuffle. -/
inductive Op where
  | add (j : Job)
  | delete (perm : RandPerm) (id : String)

/-- Apply one operation. -/
def applyOp (items : adaptiveOrderItems) : Op → adaptiveOrderItems
  | Op.add j => (add items j).1
  | Op.delete perm id => (delete none perm items id).1

/-- Apply a sequence of operations, first to last. -/
def applyOps (items : adaptiveOrderItems) (ops : List Op) : adaptiveOrderItems :=
  ops.foldl applyOp items

/-- Every entry of the five buckets, in the order ready, waiting, stalled,
completed, passed. -/
def allListed (items : adaptiveOrderItems) : List String :=
  items.ready ++ items.waiting ++ items.stalled ++ items.completed ++ items.passed

/-- Every id of the job map is listed in exactly one bucket and only once. -/
def liveListedOnce (items : adaptiveOrderItems) : Prop :=
  ∀ e ∈ items.jobs, (allListed items).count e.1 = 1

instance (items : adaptiveOrderItems) : Decidable (liveListedOnce items) := by
  unfold liveListedOnce; infer_instance

/-- What the spec says of `updateReady`: `after` is a permutation of exactly
the entries of `before` that are still in the job map. -/
def specReadyPruned (jobs : JobMap) (before after : List String) : Prop :=
  List.Perm after (before.filter (fun id => mapHas jobs id))

instance (jobs : JobMap) (before after : List String) :
    Decidable (specReadyPruned jobs before after) := by
  unfold specReadyPruned; infer_instance

/-- The job `id` stays in the job map and stays not dispatchable through a
run of observation steps, and once it is stale it stays stale; `was` tells
whether it was stale at the observation before. -/
def staysUndispatchable (id : String) : Bool → List (JobMap × RandPerm) → Prop
  | _, [] => True
  | was, st :: rest =>
    validPerm st.2
      ∧ ∃ j, mapGet st.1 id = some j ∧ j.TimeInfo.IsDispatchable = false
          ∧ (was = true → j.TimeInfo.IsStale = true)
          ∧ staysUndispatchable id j.TimeInfo.IsStale rest

end adaptiveOrderItems

/-! ## The claiming queries of `pgq` -/

namespace pgq

/-- A row of table `jobs`. -/
structure JobsRow where
  id : String
  type : String
  queue_group : String
  version : Int
  priority : Int
  deriving DecidableEq, Repr

/-- A row of table `job_status`; `mod_ts` is an instant on an integer time
line.  The `integer` columns are unbounded integers: PostgreSQL does not wrap
on overflow (it rejects the statement), so no value is ever reduced. -/
structure JobStatusRow where
  id : String
  owner : String
  completed : Bool
  in_progress : Bool
  mod_ts : Int
  mod_count : Int
  err_count : Int
  deriving DecidableEq, Repr

/-- The named parameters of `checkCanUpdate`; `lock_timeout` is the
lock-expiry instant (now minus the lock timeout). -/
structure CanUpdateArgs where
  id : String
  owner : String
  mod_count : Int
  lock_timeout : Int
  deriving DecidableEq, Repr

/-- The relation `jobs INNER JOIN job_status AS status ON jobs.id=status.id`. -/
def jobsJoinStatus (jobs : List JobsRow) (status : List JobStatusRow) :
    List (JobsRow × JobStatusRow) :=
  jobs.flatMap (fun j => (status.filter (fun s => decide (j.id = s.id))).map (fun s => (j, s)))

/-- The WHERE clause of `checkCanUpdate` on one joined row. -/
def checkCanUpdateWhere (a : CanUpdateArgs) (r : JobsRow × JobStatusRow) : Bool :=
  decide (r.1.id = a.id)
    && ((decide (r.2.owner = a.owner)
          && decide (r.2.mod_count = a.mod_count - 1)
          && decide (r.2.mod_ts > a.lock_timeout))
        || decide (r.2.mod_ts ≤ a.lock_timeout))

/-- The part of the WHERE clause of `checkCanUpdate` that reads the status row. -/
def leaseTest (a : CanUpdateArgs) (s : JobStatusRow) : Bool :=
  (decide (s.owner = a.owner) && decide (s.mod_count = a.mod_count - 1)
      && decide (s.mod_ts > a.lock_timeout))
    || decide (s.mod_ts ≤ a.lock_timeout)

/-- The query `checkCanUpdate`: the `COUNT(*)` it returns. -/
def checkCanUpdate (jobs : List JobsRow) (status : List JobStatusRow) (a : CanUpdateArgs) : Nat :=
  ((jobsJoinStatus jobs status).filter (checkCanUpdateWhere a)).length

/-- The statement `updateJobStatus`: the table `job_status` after it; the
named parameters are given as a row `a`. -/
def updateJobStatus (status : List JobStatusRow) (a : JobStatusRow) : List JobStatusRow :=
  status.map (fun s =>
    if s.id = a.id then
      { s with owner := a.owner, completed := a.completed, in_progress := a.in_progress,
               mod_ts := a.mod_ts, mod_count := a.mod_count, err_count := a.err_count }
    else s)

/-- The precondition of a claim in the words of the spec: (a) the caller owns
the job and supplies the stored `ModCount`, or (b) the stored `ModTS` is older
than the lock-expiry instant. -/
def specClaimPrecondition (s : JobStatusRow) (owner : String) (mod_count expiry : Int) : Bool :=
  (decide (s.owner = owner) && decide (s.mod_count = mod_count)) || decide (s.mod_ts < expiry)

/-- The SET clause shared by `completeSinglePendingJob` and
`completeManyPendingJobs`, on one row. -/
def markCompleted (s : JobStatusRow) : JobStatusRow :=
  { s with completed := true, in_progress := false, mod_count := s.mod_count + 3 }

/-- The statement `completeSinglePendingJob` with `$1 = id`: the table
`job_status` after it. -/
def completeSinglePendingJob (status : List JobStatusRow) (id : String) : List JobStatusRow :=
  status.map (fun s => if s.id = id then markCompleted s else s)

/-- The statement `completeManyPendingJobs`, its placeholder expanded to the
list `ids` (`id IN (...)`): the table `job_status` after it.  With the empty
list no row is addressed. -/
def completeManyPendingJobs (status : List JobStatusRow) (ids : List String) :
    List JobStatusRow :=
  status.map (fun s => if s.id ∈ ids then markCompleted s else s)

/-- A row of table `job_scopes`. -/
structure JobScopesRow where
  id : String
  scope : String
  deriving DecidableEq, Repr

/-- The statement `removeJobScopes` with `$1 = id`: the table `job_scopes`
after it. -/
def removeJobScopes (scopes : List JobScopesRow) (id : String) : List JobScopesRow :=
  scopes.filter (fun r => !decide (r.id = id))

/-- The statement `removeManyJobScopes`, its placeholder expanded to the list
`ids`: the table `job_scopes` after it. -/
def removeManyJobScopes (scopes : List JobScopesRow) (ids : List String) : List JobScopesRow :=
  scopes.filter (fun r => !decide (r.id ∈ ids))

/-- The constraint `scope text UNIQUE NOT NULL` of `bootstrapDB`. -/
def scopesUnique (scopes : List JobScopesRow) : Prop :=
  (scopes.map JobScopesRow.scope).Nodup

instance (scopes : List JobScopesRow) : Decidable (scopesUnique scopes) := by
  unfold scopesUnique; infer_instance

/-- Why a registration of a scope is rejected. -/
inductive ScopeError where
  | conflict
  | noSuchJob
  deriving DecidableEq, Repr

/-- Modelled from the spec: the INSERT that registers a scope for a job is
not among the sources.  A row is inserted into `job_scopes` unless the table
constraints of `bootstrapDB` reject it: `UNIQUE` on `scope` (a conflict when
the scope is already held) and the foreign key of `id` into `jobs`. -/
def registerScope (jobs : List JobsRow) (scopes : List JobScopesRow) (id scope : String) :
    Except ScopeError (List JobScopesRow) :=
  if scope ∈ scopes.map JobScopesRow.scope then Except.error ScopeError.conflict
  else if id ∈ jobs.map JobsRow.id then Except.ok (scopes ++ [⟨id, scope⟩])
  else Except.error ScopeError.noSuchJob

/-- An operation on the scopes table: a registration, or the release done
when a job completes. -/
inductive ScopeOp where
  | register (id scope : String)
  | release (id : String)
  deriving DecidableEq, Repr

/-- Apply one operation; a rejected registration leaves the table as it was. -/
def applyScopeOp (jobs : List JobsRow) (scopes : List JobScopesRow) :
    ScopeOp → List JobScopesRow
  | ScopeOp.register id scope =>
    match registerScope jobs scopes id scope with
    | Except.ok t => t
    | Except.error _ => scopes
  | ScopeOp.release id => removeJobScopes scopes id

/-- Apply a sequence of operations, first to last. -/
def applyScopeOps (jobs : List JobsRow) (scopes : List JobScopesRow) (ops : List ScopeOp) :
    List JobScopesRow :=
  ops.foldl (applyScopeOp jobs) scopes

/-- A status change of the claiming protocol: a claim (the precondition query
with the lock-expiry instant `lock_timeout`, then `updateJobStatus` with the
same parameters `a` when the count is positive), or a completion. -/
inductive StatusOp where
  | claim (a : JobStatusRow) (lock_timeout : Int)
  | complete (id : String)
  deriving DecidableEq, Repr

/-- Modelled from the spec: the Go code that issues the statements is not
among the sources.  A claim runs `checkCanUpdate` and applies
`updateJobStatus` only when it succeeds (one transaction); a completion runs
`completeSinglePendingJob`. -/
def applyStatusOp (jobs : List JobsRow) (status : List JobStatusRow) :
    StatusOp → List JobStatusRow
  | StatusOp.claim a lock_timeout =>
    if 0 < checkCanUpdate jobs status ⟨a.id, a.owner, a.mod_count, lock_timeout⟩ then
      updateJobStatus status a
    else status
  | StatusOp.complete id => completeSinglePendingJob status id

/-- Apply a sequence of status changes, first to last. -/
def applyStatusOps (jobs : List JobsRow) (status : List JobStatusRow) (ops : List StatusOp) :
    List JobStatusRow :=
  ops.foldl (applyStatusOp jobs) status

/-- No claim of the run meets an expired lease: at each claim the row it
addresses has `mod_ts` later than the lock-expiry instant (no steal). -/
def leasesHeld (jobs : List JobsRow) : List JobStatusRow → List StatusOp → Prop
  | _, [] => True
  | status, StatusOp.claim a lock_timeout :: rest =>
    (∀ s ∈ status, s.id = a.id → lock_timeout < s.mod_ts)
      ∧ leasesHeld jobs (applyStatusOp jobs status (StatusOp.claim a lock_timeout)) rest
  | status, StatusOp.complete id :: rest =>
    leasesHeld jobs (applyStatusOp jobs status (StatusOp.complete id)) rest

/-- The rows related by a status change: same id, `mod_count` not lower. -/
def notLower (s t : JobStatusRow) : Prop :=
  t.id = s.id ∧ s.mod_count ≤ t.mod_count

/-- The constraint `id text NOT NULL PRIMARY KEY` of table `job_status`. -/
def statusKeyed (status : List JobStatusRow) : Prop :=
  (status.map JobStatusRow.id).Nodup

instance (status : List JobStatusRow) : Decidable (statusKeyed status) := by
  unfold statusKeyed; infer_instance

/-- The constraint `id text NOT NULL PRIMARY KEY` of table `jobs`. -/
def jobsKeyed (jobs : List JobsRow) : Prop :=
  (jobs.map JobsRow.id).Nodup

instance (jobs : List JobsRow) : Decidable (jobsKeyed jobs) := by
  unfold jobsKeyed; infer_instance

end pgq

end amboy

/-! # Theorems -/

namespace amboy

/-! ## The job map -/

theorem lookup_cons_self (k : String) (v : Job) (t : JobMap) :
    List.lookup k ((k, v) :: t) = some v := by
  simp [List.lookup_cons]

theorem lookup_cons_ne (k a : String) (v : Job) (t : JobMap) (h : k ≠ a) :
    List.lookup k ((a, v) :: t) = List.lookup k t := by
  have hb : (k == a) = false := by simpa using h
  simp [List.lookup_cons, hb]

theorem mapGet_mapDelete_self (m : JobMap) (id : String) : mapGet (mapDelete m id) id = none := by
  induction m with
  | nil => rfl
  | cons e t ih =>
    rcases e with ⟨a, v⟩
    unfold mapGet mapDelete at *
    by_cases h : a = id
    · simpa [List.filter_cons, h] using ih
    · have h2 : id ≠ a := fun c => h c.symm
      simp only [List.filter_cons, bne_iff_ne, ne_eq, h, not_false_eq_true, decide_True, if_true]
      rw [lookup_cons_ne _ _ _ _ h2]
      simpa using ih

theorem mapGet_mapDelete_ne (m : JobMap) (id k : String) (hk : k ≠ id) :
    mapGet (mapDelete m id) k = mapGet m k := by
  induction m with
  | nil => rfl
  | cons e t ih =>
    rcases e with ⟨a, v⟩
    unfold mapGet mapDelete at *
    by_cases h : a = id
    · have h2 : k ≠ a := fun c => hk (c.trans h)
      rw [lookup_cons_ne _ _ _ _ h2]
      simpa [List.filter_cons, h] using ih
    · simp only [List.filter_cons, bne_iff_ne, ne_eq, h, not_false_eq_true, decide_True, if_true]
      by_cases h3 : k = a
      · subst h3
        rw [lookup_cons_self, lookup_cons_self]
      · rw [lookup_cons_ne _ _ _ _ h3, lookup_cons_ne _ _ _ _ h3]
        simpa using ih

theorem mapGet_mapSet_self (m : JobMap) (id : String) (j : Job) :
    mapGet (mapSet m id j) id = some j := by
  simp [mapGet, mapSet, List.lookup_cons]

theorem mapGet_mapSet_ne (m : JobMap) (id k : String) (j : Job) (hk : k ≠ id) :
    mapGet (mapSet m id j) k = mapGet m k := by
  have h := mapGet_mapDelete_ne m id k hk
  unfold mapGet at *
  unfold mapSet
  rw [lookup_cons_ne _ _ _ _ hk]
  exact h

namespace adaptiveOrderItems

/-! ## The uncancelled passes in closed form -/

theorem updateWaitingLoop_none (items : adaptiveOrderItems) (new l : List String) :
    updateWaitingLoop none items new l =
      ({ items with
          waiting := new ++ sentTo (waitingTarget items.jobs) Target.waiting l,
          stalled := items.stalled ++ sentTo (waitingTarget items.jobs) Target.stalled l,
          completed := items.completed ++ sentTo (waitingTarget items.jobs) Target.completed l,
          ready := items.ready ++ sentTo (waitingTarget items.jobs) Target.ready l }, none) := by
  induction l generalizing items new with
  | nil => simp [updateWaitingLoop, sentTo]
  | cons id rest ih =>
    rw [updateWaitingLoop]
    cases hget : mapGet items.jobs id with
    | none => simp [ih, ctxErr, ctxTick, sentTo, waitingTarget, hget]
    | some job =>
      rcases job with ⟨jid, ⟨c, p⟩, ⟨d, s⟩, dep⟩
      cases c <;> cases p <;> cases d <;> cases s <;> cases dep <;>
        simp [ih, ctxErr, ctxTick, sentTo, waitingTarget, hget]

theorem updateStalledLoop_none (items : adaptiveOrderItems) (new l : List String) :
    updateStalledLoop none items new l =
      ({ items with
          stalled := new ++ sentTo (stalledTarget items.jobs) Target.stalled l,
          waiting := items.waiting ++ sentTo (stalledTarget items.jobs) Target.waiting l,
          completed := items.completed ++ sentTo (stalledTarget items.jobs) Target.completed l,
          ready := items.ready ++ sentTo (stalledTarget items.jobs) Target.ready l }, none) := by
  induction l generalizing items new with
  | nil => simp [updateStalledLoop, sentTo]
  | cons id rest ih =>
    rw [updateStalledLoop]
    cases hget : mapGet items.jobs id with
    | none => simp [ih, ctxErr, ctxTick, sentTo, stalledTarget, hget]
    | some job =>
      rcases job with ⟨jid, ⟨c, p⟩, ⟨d, s⟩, dep⟩
      cases c <;> cases p <;> cases d <;> cases s <;> cases dep <;>
        simp [ih, ctxErr, ctxTick, sentTo, stalledTarget, hget]

theorem set_after_done (done : List String) (k : Nat) (v : String) :
    (done ++ List.replicate (k + 1) "").set done.length v = (done ++ [v]) ++ List.replicate k "" := by
  induction done with
  | nil => simp [List.replicate_succ]
  | cons a t ih => simpa using ih

theorem replicate_after_done (done : List String) (k : Nat) :
    done ++ List.replicate (k + 1) "" = (done ++ [""]) ++ List.replicate k "" := by
  simp [List.replicate_succ]

theorem updateReadyLoop_none (items : adaptiveOrderItems) (done : List String) (extra : Nat)
    (rs : List Nat) :
    updateReadyLoop none items (done ++ List.replicate (rs.length + extra) "") done.length rs =
      ({ items with ready := done ++ rs.map (readySlot items) ++ List.replicate extra "" },
        none) := by
  induction rs generalizing done with
  | nil => simp [updateReadyLoop]
  | cons r rest ih =>
    rw [updateReadyLoop]
    have hlen : (r :: rest).length + extra = (rest.length + extra) + 1 := by
      simp only [List.length_cons]; omega
    rw [hlen]
    cases hhas : mapHas items.jobs (items.ready.getD r "") with
    | false =>
      have hslot : readySlot items r = "" := by simp only [readySlot, hhas]; rfl
      have h := ih (done ++ [""])
      rw [List.length_append, List.length_singleton] at h
      rw [replicate_after_done]
      simp only [ctxErr, ctxTick, Bool.not_false, if_true, Bool.false_eq_true, if_false,
        List.map_cons, hslot]
      rw [h]
      simp only [List.append_assoc, List.singleton_append]
    | true =>
      have hslot : readySlot items r = items.ready.getD r "" := by
        simp only [readySlot, hhas, if_true]
      have h := ih (done ++ [items.ready.getD r ""])
      rw [List.length_append, List.length_singleton] at h
      simp only [ctxErr, ctxTick, Bool.not_true, Bool.false_eq_true, if_false,
        List.map_cons, hslot]
      rw [set_after_done, h]
      simp only [List.append_assoc, List.singleton_append]

/-- The uncancelled `updateReady` in closed form, when the permutation source
returns a list of the requested length. -/
theorem updateReady_none (perm : RandPerm) (items : adaptiveOrderItems)
    (hperm : (perm items.ready.length).length = items.ready.length) :
    updateReady none perm items =
      (if items.ready.length > 1 then
          { items with ready := (perm items.ready.length).map (readySlot items) }
        else items, none) := by
  unfold updateReady
  split
  · have h := updateReadyLoop_none items [] 0 (perm items.ready.length)
    simp only [Nat.add_zero, List.nil_append, List.length_nil, List.replicate_zero,
      List.append_nil] at h
    rw [hperm] at h
    rw [h]
  · rfl

theorem updateWaiting_none (items : adaptiveOrderItems) :
    updateWaiting none items = (waitingPass items, none) := by
  unfold updateWaiting waitingPass
  rw [updateWaitingLoop_none]
  simp

theorem updateStalled_none (items : adaptiveOrderItems) :
    updateStalled none items = (stalledPass items, none) := by
  unfold updateStalled stalledPass
  rw [updateStalledLoop_none]
  simp

theorem validPerm_length (perm : RandPerm) (h : validPerm perm) (n : Nat) :
    (perm n).length = n := by
  have := (h n).length_eq
  simpa using this

theorem updateReady_none_valid (perm : RandPerm) (items : adaptiveOrderItems)
    (h : validPerm perm) :
    updateReady none perm items = (readyPass perm items, none) := by
  rw [updateReady_none perm items (validPerm_length perm h _)]
  unfold readyPass
  split <;> rfl

/-- The uncancelled `refilter` is the composition of the three closed forms. -/
theorem refilter_none (perm : RandPerm) (items : adaptiveOrderItems) (h : validPerm perm) :
    refilter none perm items = (readyPass perm (stalledPass (waitingPass items)), none) := by
  unfold refilter
  simp only [updateWaiting_none, updateStalled_none, updateReady_none_valid _ _ h]

theorem validPerm_range : validPerm List.range := fun _ => List.Perm.refl _

/-! ## Membership after the uncancelled passes -/

theorem mem_sentTo (f : String → Target) (t : Target) (l : List String) (x : String) :
    x ∈ sentTo f t l ↔ x ∈ l ∧ f x = t := by
  simp [sentTo, List.mem_filter]

theorem getD_mem_or_default (l : List String) (r : Nat) :
    l.getD r "" ∈ l ∨ l.getD r "" = "" := by
  rw [List.getD_eq_getElem?_getD]
  cases h : l[r]? with
  | none => right; rfl
  | some v => left; exact List.getElem?_mem h

theorem readySlot_mem_or_empty (items : adaptiveOrderItems) (r : Nat) :
    readySlot items r ∈ items.ready ∨ readySlot items r = "" := by
  unfold readySlot
  split
  · exact getD_mem_or_default _ _
  · right; rfl

theorem mem_readyPass_ready (perm : RandPerm) (items : adaptiveOrderItems) (x : String)
    (hx : x ∈ (readyPass perm items).ready) : x ∈ items.ready ∨ x = "" := by
  unfold readyPass at hx
  split at hx
  · simp only [List.mem_map] at hx
    obtain ⟨r, _, hr⟩ := hx
    rw [← hr]
    exact readySlot_mem_or_empty items r
  · exact Or.inl hx

theorem readyPass_frame (perm : RandPerm) (items : adaptiveOrderItems) :
    (readyPass perm items).jobs = items.jobs
      ∧ (readyPass perm items).waiting = items.waiting
      ∧ (readyPass perm items).stalled = items.stalled
      ∧ (readyPass perm items).completed = items.completed
      ∧ (readyPass perm items).passed = items.passed := by
  unfold readyPass
  split <;> simp

/-- One observation step keeps a job that is present, not dispatchable and not
stale in `waiting`, and out of `ready` and `stalled`. -/
theorem refilterWith_keeps_waiting (s : adaptiveOrderItems) (st : JobMap × RandPerm)
    (id : String) (hid : id ≠ "") (hv : validPerm st.2)
    (hj : ∃ j, mapGet st.1 id = some j ∧ j.TimeInfo.IsDispatchable = false
      ∧ j.TimeInfo.IsStale = false)
    (hinv : id ∈ s.waiting ∧ id ∉ s.ready ∧ id ∉ s.stalled) :
    id ∈ (refilterWith s st).waiting ∧ id ∉ (refilterWith s st).ready
      ∧ id ∉ (refilterWith s st).stalled := by
  obtain ⟨j, hget, hd, hs⟩ := hj
  obtain ⟨hw, hr, hst⟩ := hinv
  have ht : waitingTarget st.1 id = Target.waiting := by
    simp [waitingTarget, hget, hd, hs]
  unfold refilterWith
  rw [refilter_none _ _ hv]
  obtain ⟨_, hfw, hfs, _, _⟩ :=
    readyPass_frame st.2 (stalledPass (waitingPass { s with jobs := st.1 }))
  have hw1 : id ∈ (waitingPass { s with jobs := st.1 }).waiting := by
    simp [waitingPass, mem_sentTo, hw, ht]
  have hs1 : id ∉ (waitingPass { s with jobs := st.1 }).stalled := by
    simp [waitingPass, mem_sentTo, hst, ht]
  have hr1 : id ∉ (waitingPass { s with jobs := st.1 }).ready := by
    simp [waitingPass, mem_sentTo, hr, ht]
  have hw2 : id ∈ (stalledPass (waitingPass { s with jobs := st.1 })).waiting := by
    simp only [stalledPass, List.mem_append]
    exact Or.inl hw1
  have hs2 : id ∉ (stalledPass (waitingPass { s with jobs := st.1 })).stalled := by
    simp only [stalledPass, mem_sentTo]
    exact fun h => hs1 h.1
  have hr2 : id ∉ (stalledPass (waitingPass { s with jobs := st.1 })).ready := by
    simp only [stalledPass, List.mem_append, mem_sentTo]
    rintro (h | h)
    · exact hr1 h
    · exact hs1 h.1
  refine ⟨?_, ?_, ?_⟩
  · rw [hfw]; exact hw2
  · intro h
    rcases mem_readyPass_ready _ _ _ h with h | h
    · exact hr2 h
    · exact hid h
  · rw [hfs]; exact hs2

/-! ## A second refilter moves nothing -/

theorem sentTo_all (f : String → Target) (t : Target) (l : List String)
    (h : ∀ x ∈ l, f x = t) : sentTo f t l = l := by
  unfold sentTo
  rw [List.filter_eq_self]
  intro x hx
  simp [h x hx]

theorem sentTo_none (f : String → Target) (t u : Target) (l : List String)
    (h : ∀ x ∈ l, f x = u) (hne : u ≠ t) : sentTo f t l = [] := by
  unfold sentTo
  rw [List.filter_eq_nil_iff]
  intro x hx
  simp [h x hx, hne]

theorem waitingPass_of_settled (items : adaptiveOrderItems)
    (h : ∀ x ∈ items.waiting, waitingTarget items.jobs x = Target.waiting) :
    waitingPass items = items := by
  unfold waitingPass
  rw [sentTo_all _ _ _ h, sentTo_none _ _ _ _ h (by decide), sentTo_none _ _ _ _ h (by decide),
    sentTo_none _ _ _ _ h (by decide)]
  simp

theorem stalledPass_of_settled (items : adaptiveOrderItems)
    (h : ∀ x ∈ items.stalled, stalledTarget items.jobs x = Target.stalled) :
    stalledPass items = items := by
  unfold stalledPass
  rw [sentTo_all _ _ _ h, sentTo_none _ _ _ _ h (by decide), sentTo_none _ _ _ _ h (by decide),
    sentTo_none _ _ _ _ h (by decide)]
  simp

theorem waitingTarget_of_stalledTarget_waiting (jobs : JobMap) (x : String)
    (h : stalledTarget jobs x = Target.waiting) : waitingTarget jobs x = Target.waiting := by
  unfold stalledTarget at h
  unfold waitingTarget
  cases hget : mapGet jobs x with
  | none => simp [hget] at h
  | some job =>
    rcases job with ⟨jid, ⟨c, p⟩, ⟨d, s⟩, dep⟩
    cases c <;> cases p <;> cases d <;> cases s <;> cases dep <;> simp_all

theorem settled_after_passes (items : adaptiveOrderItems) :
    (∀ x ∈ (stalledPass (waitingPass items)).waiting,
        waitingTarget (stalledPass (waitingPass items)).jobs x = Target.waiting)
      ∧ ∀ x ∈ (stalledPass (waitingPass items)).stalled,
        stalledTarget (stalledPass (waitingPass items)).jobs x = Target.stalled := by
  have hjobs : (stalledPass (waitingPass items)).jobs = items.jobs := rfl
  rw [hjobs]
  constructor
  · intro x hx
    simp only [stalledPass, waitingPass, List.mem_append, mem_sentTo] at hx
    rcases hx with h | h
    · exact h.2
    · exact waitingTarget_of_stalledTarget_waiting _ _ h.2
  · intro x hx
    simp only [stalledPass, waitingPass, mem_sentTo] at hx
    exact hx.2

theorem map_readySlot_range (u : adaptiveOrderItems)
    (h : ∀ y ∈ u.ready, mapHas u.jobs y = false → y = "") :
    (List.range u.ready.length).map (readySlot u) = u.ready := by
  apply List.ext_getElem
  · simp
  · intro i h1 h2
    have hi : i < u.ready.length := h2
    have hg : u.ready.getD i "" = u.ready[i] := by
      rw [List.getD_eq_getElem?_getD, List.getElem?_eq_getElem hi]; rfl
    simp only [List.getElem_map, List.getElem_range, readySlot, hg]
    split
    · rfl
    · rename_i hf
      have := h (u.ready[i]) (List.getElem_mem hi) (by simpa using hf)
      exact this.symm

theorem readySlot_fixed (t : adaptiveOrderItems) (r : Nat)
    (h : mapHas t.jobs (readySlot t r) = false) : readySlot t r = "" := by
  unfold readySlot at *
  split
  · rename_i hh; rw [if_pos hh] at h; rw [hh] at h; cases h
  · rfl

theorem readyPass_twice (p1 p2 : RandPerm) (t : adaptiveOrderItems)
    (h1 : validPerm p1) (h2 : validPerm p2) :
    List.Perm (readyPass p2 (readyPass p1 t)).ready (readyPass p1 t).ready := by
  by_cases hlen : t.ready.length > 1
  · have hu : readyPass p1 t = { t with ready := (p1 t.ready.length).map (readySlot t) } := by
      unfold readyPass; rw [if_pos hlen]
    rw [hu]
    generalize hud : ({ t with ready := (p1 t.ready.length).map (readySlot t) } : adaptiveOrderItems) = u
    have hul : u.ready.length = t.ready.length := by
      rw [← hud]; simp [validPerm_length p1 h1]
    have hfix : ∀ y ∈ u.ready, mapHas u.jobs y = false → y = "" := by
      rw [← hud]
      intro y hy hm
      simp only [List.mem_map] at hy
      obtain ⟨r, _, rfl⟩ := hy
      exact readySlot_fixed t r hm
    have hlen2 : u.ready.length > 1 := by rw [hul]; exact hlen
    unfold readyPass
    rw [if_pos hlen2]
    simp only
    have hp := (h2 u.ready.length).map (readySlot u)
    rw [map_readySlot_range u hfix] at hp
    exact hp
  · have hu : readyPass p1 t = t := by unfold readyPass; rw [if_neg hlen]
    rw [hu]
    have hu2 : readyPass p2 t = t := by unfold readyPass; rw [if_neg hlen]
    rw [hu2]

/-! ## add -/

/-- C1. When the id of `j` is not in the job map, `add` returns no error,
stores `j` under its id (every other key keeps its value), and appends the id
to the end of exactly the bucket the classification rule names (completed;
else waiting when not dispatchable; else stalled when stale; else by
dependency state); each of the other four buckets is unchanged. -/
theorem add_new_job (items : adaptiveOrderItems) (j : Job)
    (hnew : mapHas items.jobs j.ID = false) :
    (add items j).2 = none
      ∧ mapGet (add items j).1.jobs j.ID = some j
      ∧ (∀ k, k ≠ j.ID → mapGet (add items j).1.jobs k = mapGet items.jobs k)
      ∧ ∀ b, bucket (add items j).1 b =
          if b = classificationRule j then bucket items b ++ [j.ID] else bucket items b := by
  rcases j with ⟨jid, ⟨c, p⟩, ⟨d, s⟩, dep⟩
  simp only at hnew
  refine ⟨?_, ?_, ?_, ?_⟩
  · cases c <;> cases d <;> cases s <;> cases dep <;> simp [add, hnew]
  · cases c <;> cases d <;> cases s <;> cases dep <;>
      simp [add, hnew, mapGet_mapSet_self]
  · intro k hk
    cases c <;> cases d <;> cases s <;> cases dep <;>
      simp [add, hnew, mapGet_mapSet_ne _ _ _ _ hk]
  · intro b
    cases c <;> cases d <;> cases s <;> cases dep <;> cases b <;>
      simp [add, hnew, bucket, classificationRule]

theorem add_new_job_witness :
    mapHas empty.jobs "a" = false
      ∧ (add empty ⟨"a", ⟨false, false⟩, ⟨true, false⟩, dependency.State.Ready⟩).2 = none :=
  ⟨by decide, (add_new_job empty ⟨"a", ⟨false, false⟩, ⟨true, false⟩, dependency.State.Ready⟩
    (by decide)).1⟩

/-- C2. When the id of `j` is already in the job map, `add` returns a
duplicate-job error and leaves the whole classifier (the job map and the five
buckets) exactly as it was. -/
theorem add_duplicate_job (items : adaptiveOrderItems) (j : Job)
    (hdup : mapHas items.jobs j.ID = true) :
    (∃ msg, (add items j).2 = some (AmboyError.DuplicateJobError msg))
      ∧ (add items j).1 = items
      ∧ (add items j).1.jobs = items.jobs
      ∧ ∀ b, bucket (add items j).1 b = bucket items b := by
  simp [add, hdup]

theorem add_duplicate_job_witness :
    mapHas
        (add empty ⟨"a", ⟨false, false⟩, ⟨true, false⟩, dependency.State.Ready⟩).1.jobs "a" = true
      ∧ (add (add empty ⟨"a", ⟨false, false⟩, ⟨true, false⟩, dependency.State.Ready⟩).1
          ⟨"a", ⟨true, false⟩, ⟨true, false⟩, dependency.State.Blocked⟩).1
        = (add empty ⟨"a", ⟨false, false⟩, ⟨true, false⟩, dependency.State.Ready⟩).1 :=
  ⟨by decide, (add_duplicate_job
    (add empty ⟨"a", ⟨false, false⟩, ⟨true, false⟩, dependency.State.Ready⟩).1
    ⟨"a", ⟨true, false⟩, ⟨true, false⟩, dependency.State.Blocked⟩ (by decide)).2.1⟩

/-! ## refilter -/

theorem refilterRun_keeps_waiting (steps : List (JobMap × RandPerm)) (s : adaptiveOrderItems)
    (id : String) (hid : id ≠ "")
    (hsteps : ∀ st ∈ steps, validPerm st.2 ∧ ∃ j, mapGet st.1 id = some j
      ∧ j.TimeInfo.IsDispatchable = false ∧ j.TimeInfo.IsStale = false)
    (hinv : id ∈ s.waiting ∧ id ∉ s.ready ∧ id ∉ s.stalled) :
    id ∈ (refilterRun s steps).waiting ∧ id ∉ (refilterRun s steps).ready
      ∧ id ∉ (refilterRun s steps).stalled := by
  induction steps generalizing s with
  | nil => exact hinv
  | cons st rest ih =>
    have hst := hsteps st (List.mem_cons_self _ _)
    have hstep := refilterWith_keeps_waiting s st id hid hst.1 hst.2 hinv
    exact ih (refilterWith s st) (fun st2 h2 => hsteps st2 (List.mem_cons_of_mem _ h2)) hstep

/-- C6, amended. A job with a non-empty id that is not completed and not
dispatchable is added to a classifier whose job map and buckets do not
mention its id: `add` succeeds, and after any run of uncancelled refilters
(none included) in which the job stays in the job map, stays not dispatchable
and is not stale, its id is in `waiting` and not in `ready`, whatever its
other answers. -/
theorem waiting_while_not_dispatchable (items : adaptiveOrderItems) (j : Job)
    (steps : List (JobMap × RandPerm))
    (hid : j.ID ≠ "")
    (hnew : mapHas items.jobs j.ID = false)
    (hfresh : ∀ b, j.ID ∉ bucket items b)
    (hc : j.Status.Completed = false)
    (hd : j.TimeInfo.IsDispatchable = false)
    (hsteps : ∀ st ∈ steps, validPerm st.2 ∧ ∃ j2, mapGet st.1 j.ID = some j2
      ∧ j2.TimeInfo.IsDispatchable = false ∧ j2.TimeInfo.IsStale = false) :
    (add items j).2 = none
      ∧ j.ID ∈ (refilterRun (add items j).1 steps).waiting
      ∧ j.ID ∉ (refilterRun (add items j).1 steps).ready := by
  have hadd : (add items j).1 =
      { items with jobs := mapSet items.jobs j.ID j, waiting := items.waiting ++ [j.ID] } := by
    simp [add, hnew, hc, hd]
  have herr : (add items j).2 = none := by
    simp [add, hnew, hc, hd]
  have hinv : j.ID ∈ (add items j).1.waiting ∧ j.ID ∉ (add items j).1.ready
      ∧ j.ID ∉ (add items j).1.stalled := by
    rw [hadd]
    exact ⟨by simp, hfresh Bucket.ready, hfresh Bucket.stalled⟩
  have h := refilterRun_keeps_waiting steps (add items j).1 j.ID hid hsteps hinv
  exact ⟨herr, h.1, h.2.1⟩

theorem waiting_while_not_dispatchable_witness :
    "a" ∈ (refilterRun (add empty ⟨"a", ⟨false, false⟩, ⟨false, false⟩, dependency.State.Ready⟩).1
        [([("a", ⟨"a", ⟨false, false⟩, ⟨false, false⟩, dependency.State.Ready⟩)], List.range),
         ([("a", ⟨"a", ⟨true, true⟩, ⟨false, false⟩, dependency.State.Passed⟩)], List.range)]).waiting
      ∧ "a" ∉ (refilterRun
        (add empty ⟨"a", ⟨false, false⟩, ⟨false, false⟩, dependency.State.Ready⟩).1
        [([("a", ⟨"a", ⟨false, false⟩, ⟨false, false⟩, dependency.State.Ready⟩)], List.range),
         ([("a", ⟨"a", ⟨true, true⟩, ⟨false, false⟩, dependency.State.Passed⟩)], List.range)]).ready :=
  (waiting_while_not_dispatchable empty
    ⟨"a", ⟨false, false⟩, ⟨false, false⟩, dependency.State.Ready⟩
    [([("a", ⟨"a", ⟨false, false⟩, ⟨false, false⟩, dependency.State.Ready⟩)], List.range),
     ([("a", ⟨"a", ⟨true, true⟩, ⟨false, false⟩, dependency.State.Passed⟩)], List.range)]
    (by decide) (by decide) (by intro b; cases b <;> decide) rfl rfl
    (by
      intro st hst
      simp only [List.mem_cons, List.mem_singleton, List.not_mem_nil, or_false] at hst
      rcases hst with h | h <;> subst h
      · exact ⟨validPerm_range, _, rfl, rfl, rfl⟩
      · exact ⟨validPerm_range, _, rfl, rfl, rfl⟩)).2

/-- C6, as stated, fails on the code.  A completed job that is not
dispatchable is put in `completed` by `add`, not in `waiting`; a job that is
not dispatchable and stale is put in `waiting` by `add` and moved to `stalled`
by the next `refilter`; and a waiting job whose id is the empty string is also
listed in `ready` once `updateReady` has written the empty string in place of
an id that left the job map. -/
theorem not_dispatchable_job_leaves_waiting :
    ((add empty ⟨"a", ⟨true, false⟩, ⟨false, false⟩, dependency.State.Ready⟩).1
        = { jobs := [("a", ⟨"a", ⟨true, false⟩, ⟨false, false⟩, dependency.State.Ready⟩)],
            ready := [], waiting := [], stalled := [], completed := ["a"], passed := [] })
      ∧ ((add empty ⟨"b", ⟨false, false⟩, ⟨false, true⟩, dependency.State.Ready⟩).1.waiting = ["b"]
        ∧ refilterWith (add empty ⟨"b", ⟨false, false⟩, ⟨false, true⟩, dependency.State.Ready⟩).1
            ([("b", ⟨"b", ⟨false, false⟩, ⟨false, true⟩, dependency.State.Ready⟩)], List.range)
          = { jobs := [("b", ⟨"b", ⟨false, false⟩, ⟨false, true⟩, dependency.State.Ready⟩)],
              ready := [], waiting := [], stalled := ["b"], completed := [], passed := [] })
      ∧ (bucketsOf (applyOps empty
            [Op.add (plainJob "x" dependency.State.Ready), Op.delete List.range "x",
              Op.add (plainJob "y" dependency.State.Ready)]) "" = []
        ∧ (refilter none List.range (add (applyOps empty
            [Op.add (plainJob "x" dependency.State.Ready), Op.delete List.range "x",
              Op.add (plainJob "y" dependency.State.Ready)])
            ⟨"", ⟨false, false⟩, ⟨false, false⟩, dependency.State.Blocked⟩).1).1
          = { jobs := [("", ⟨"", ⟨false, false⟩, ⟨false, false⟩, dependency.State.Blocked⟩),
                       ("y", plainJob "y" dependency.State.Ready)],
              ready := ["", "y"], waiting := [""], stalled := [], completed := [],
              passed := [] }) := by
  decide

/-- C7. Two uncancelled refilters in a row, on any classifier state and for
any two permutation sources: neither changes the job map; after the second,
every bucket holds the same ids as after the first; `waiting`, `stalled`,
`completed` and `passed` are the same sequences, and `ready` is a
permutation of what it was. -/
theorem refilter_twice_same_membership (items : adaptiveOrderItems) (p1 p2 : RandPerm)
    (h1 : validPerm p1) (h2 : validPerm p2) :
    (refilter none p1 items).1.jobs = items.jobs
      ∧ (refilter none p2 (refilter none p1 items).1).1.jobs = items.jobs
      ∧ (∀ b x, x ∈ bucket (refilter none p2 (refilter none p1 items).1).1 b
          ↔ x ∈ bucket (refilter none p1 items).1 b)
      ∧ (∀ b, b ≠ Bucket.ready →
          bucket (refilter none p2 (refilter none p1 items).1).1 b
            = bucket (refilter none p1 items).1 b)
      ∧ List.Perm (refilter none p2 (refilter none p1 items).1).1.ready
          (refilter none p1 items).1.ready := by
  rw [refilter_none _ _ h2, refilter_none _ _ h1]
  simp only
  generalize ht : stalledPass (waitingPass items) = t
  have hset := settled_after_passes items
  rw [ht] at hset
  obtain ⟨hfj, hfw, hfs, hfc, hfp⟩ := readyPass_frame p1 t
  have hw : waitingPass (readyPass p1 t) = readyPass p1 t := by
    apply waitingPass_of_settled
    rw [hfw, hfj]; exact hset.1
  have hs : stalledPass (readyPass p1 t) = readyPass p1 t := by
    apply stalledPass_of_settled
    rw [hfs, hfj]; exact hset.2
  rw [hw, hs]
  obtain ⟨gfj, gfw, gfs, gfc, gfp⟩ := readyPass_frame p2 (readyPass p1 t)
  have hperm := readyPass_twice p1 p2 t h1 h2
  have htj : t.jobs = items.jobs := by rw [← ht]; rfl
  refine ⟨by rw [hfj, htj], by rw [gfj, hfj, htj], ?_, ?_, hperm⟩
  · intro b x
    cases b
    · exact hperm.mem_iff
    · simp only [bucket, gfw]
    · simp only [bucket, gfs]
    · simp only [bucket, gfc]
    · simp only [bucket, gfp]
  · intro b hb
    cases b
    · exact absurd rfl hb
    · simp only [bucket, gfw]
    · simp only [bucket, gfs]
    · simp only [bucket, gfc]
    · simp only [bucket, gfp]

theorem refilter_twice_same_membership_witness :
    List.Perm
      (refilter none (fun n => (List.range n).reverse)
        (refilter none List.range
          { jobs := [("a", plainJob "a" dependency.State.Ready),
                     ("b", plainJob "b" dependency.State.Ready)],
            ready := ["a"], waiting := ["b", "c"], stalled := [], completed := [],
            passed := [] }).1).1.ready
      (refilter none List.range
          { jobs := [("a", plainJob "a" dependency.State.Ready),
                     ("b", plainJob "b" dependency.State.Ready)],
            ready := ["a"], waiting := ["b", "c"], stalled := [], completed := [],
            passed := [] }).1.ready :=
  (refilter_twice_same_membership
    { jobs := [("a", plainJob "a" dependency.State.Ready),
               ("b", plainJob "b" dependency.State.Ready)],
      ready := ["a"], waiting := ["b", "c"], stalled := [], completed := [], passed := [] }
    List.range (fun n => (List.range n).reverse) validPerm_range
    (fun n => List.reverse_perm (List.range n))).2.2.2.2

/-! ## Stale jobs -/

/-- One observation step on a job that is present and stale, has a non-empty
id and is listed in `waiting` or `stalled` but not in `ready`: afterwards it is
in `stalled` and still not in `ready`, whatever its dependency state. -/
theorem refilterWith_keeps_stalled (s : adaptiveOrderItems) (st : JobMap × RandPerm)
    (id : String) (hid : id ≠ "") (hv : validPerm st.2)
    (hj : ∃ j, mapGet st.1 id = some j ∧ j.TimeInfo.IsStale = true)
    (hin : id ∈ s.waiting ∨ id ∈ s.stalled) (hr : id ∉ s.ready) :
    id ∈ (refilterWith s st).stalled ∧ id ∉ (refilterWith s st).ready := by
  obtain ⟨j, hget, hs⟩ := hj
  have htw : waitingTarget st.1 id = Target.stalled := by
    simp [waitingTarget, hget, hs]
  have hts : stalledTarget st.1 id = Target.stalled := by
    simp [stalledTarget, hget, hs]
  unfold refilterWith
  rw [refilter_none _ _ hv]
  obtain ⟨_, _, hfs, _, _⟩ :=
    readyPass_frame st.2 (stalledPass (waitingPass { s with jobs := st.1 }))
  have hs1 : id ∈ (waitingPass { s with jobs := st.1 }).stalled := by
    simp only [waitingPass, List.mem_append, mem_sentTo]
    rcases hin with h | h
    · exact Or.inr ⟨h, htw⟩
    · exact Or.inl h
  have hr1 : id ∉ (waitingPass { s with jobs := st.1 }).ready := by
    simp [waitingPass, mem_sentTo, hr, htw]
  have hs2 : id ∈ (stalledPass (waitingPass { s with jobs := st.1 })).stalled := by
    simp only [stalledPass, mem_sentTo]
    exact ⟨hs1, hts⟩
  have hr2 : id ∉ (stalledPass (waitingPass { s with jobs := st.1 })).ready := by
    simp only [stalledPass, List.mem_append, mem_sentTo]
    rintro (h | h)
    · exact hr1 h
    · have h2 : stalledTarget st.1 id = Target.ready := h.2
      rw [hts] at h2
      cases h2
  refine ⟨?_, ?_⟩
  · rw [hfs]; exact hs2
  · intro h
    rcases mem_readyPass_ready _ _ _ h with h | h
    · exact hr2 h
    · exact hid h

/-- A job with a non-empty id that is not completed and stale when added (to a
classifier that does not know its id) is in `stalled` and not in `ready` after
any non-empty run of observation steps in which it stays present and stale. -/
theorem stale_job_stays_stalled (items : adaptiveOrderItems) (j : Job)
    (steps : List (JobMap × RandPerm))
    (hid : j.ID ≠ "")
    (hnew : mapHas items.jobs j.ID = false)
    (hfresh : ∀ b, j.ID ∉ bucket items b)
    (hc : j.Status.Completed = false)
    (hs : j.TimeInfo.IsStale = true)
    (hne : steps ≠ [])
    (hsteps : ∀ st ∈ steps, validPerm st.2 ∧ ∃ j2, mapGet st.1 j.ID = some j2
      ∧ j2.TimeInfo.IsStale = true) :
    j.ID ∈ (refilterRun (add items j).1 steps).stalled
      ∧ j.ID ∉ (refilterRun (add items j).1 steps).ready := by
  have hadd : (j.ID ∈ (add items j).1.waiting ∨ j.ID ∈ (add items j).1.stalled)
      ∧ j.ID ∉ (add items j).1.ready := by
    have hr := hfresh Bucket.ready
    simp only [bucket] at hr
    rcases j with ⟨jid, ⟨c, p⟩, ⟨d, s⟩, dep⟩
    simp only at hc hs hnew hr
    subst hc hs
    cases d <;> simp [add, hnew, hr]
  have gen : ∀ (steps : List (JobMap × RandPerm)) (s : adaptiveOrderItems),
      (∀ st ∈ steps, validPerm st.2 ∧ ∃ j2, mapGet st.1 j.ID = some j2
        ∧ j2.TimeInfo.IsStale = true) →
      j.ID ∈ s.stalled ∧ j.ID ∉ s.ready →
      j.ID ∈ (refilterRun s steps).stalled ∧ j.ID ∉ (refilterRun s steps).ready := by
    intro steps
    induction steps with
    | nil => intro s _ h; exact h
    | cons st rest ih =>
      intro s hst h
      have h1 := hst st (List.mem_cons_self _ _)
      exact ih (refilterWith s st) (fun st2 h2 => hst st2 (List.mem_cons_of_mem _ h2))
        (refilterWith_keeps_stalled s st j.ID hid h1.1 h1.2 (Or.inr h.1) h.2)
  cases steps with
  | nil => exact absurd rfl hne
  | cons st rest =>
    have h1 := hsteps st (List.mem_cons_self _ _)
    exact gen rest (refilterWith (add items j).1 st)
      (fun st2 h2 => hsteps st2 (List.mem_cons_of_mem _ h2))
      (refilterWith_keeps_stalled (add items j).1 st j.ID hid h1.1 h1.2 hadd.1 hadd.2)

/-! ## The code at particular inputs -/

/-- C3. The code at two runs that start from the empty classifier.  First
run: a ready job "a" is added and deleted (its id stays in `ready`, a
sequence of length one that `updateReady` leaves alone), then a completed job
with the same id is added: "a" is in the job map and listed in `ready` and
in `completed`.  Second run, with one job per id: ready jobs "a" and "b" are
added, "a" is deleted (`updateReady` leaves the empty string in its place),
then a completed job whose id is the empty string is added: that id is listed
in `ready` and in `completed`. -/
theorem add_delete_add_leaves_two_buckets :
    (mapHas (applyOps empty
        [Op.add (plainJob "a" dependency.State.Ready), Op.delete List.range "a",
          Op.add ⟨"a", ⟨true, false⟩, ⟨true, false⟩, dependency.State.Ready⟩]).jobs "a" = true
      ∧ bucketsOf (applyOps empty
        [Op.add (plainJob "a" dependency.State.Ready), Op.delete List.range "a",
          Op.add ⟨"a", ⟨true, false⟩, ⟨true, false⟩, dependency.State.Ready⟩]) "a"
          = [Bucket.ready, Bucket.completed]
      ∧ ¬ liveInOneBucket (applyOps empty
        [Op.add (plainJob "a" dependency.State.Ready), Op.delete List.range "a",
          Op.add ⟨"a", ⟨true, false⟩, ⟨true, false⟩, dependency.State.Ready⟩]))
    ∧ (mapHas (applyOps empty
        [Op.add (plainJob "a" dependency.State.Ready), Op.add (plainJob "b" dependency.State.Ready),
          Op.delete List.range "a",
          Op.add ⟨"", ⟨true, false⟩, ⟨true, false⟩, dependency.State.Ready⟩]).jobs "" = true
      ∧ bucketsOf (applyOps empty
        [Op.add (plainJob "a" dependency.State.Ready), Op.add (plainJob "b" dependency.State.Ready),
          Op.delete List.range "a",
          Op.add ⟨"", ⟨true, false⟩, ⟨true, false⟩, dependency.State.Ready⟩]) ""
          = [Bucket.ready, Bucket.completed]) := by
  decide

/-- C4. The code at a classifier holding the single ready job "a": after
`delete` of "a" under an uncancelled context, whatever the permutation
source, the count is 1 and the job map is empty, but `ready` still lists
"a". -/
theorem delete_keeps_single_ready_entry (perm : RandPerm) :
    mapHas (add empty (plainJob "a" dependency.State.Ready)).1.jobs "a" = true
      ∧ (add empty (plainJob "a" dependency.State.Ready)).1.ready = ["a"]
      ∧ delete none perm (add empty (plainJob "a" dependency.State.Ready)).1 "a"
          = ({ empty with ready := ["a"] }, 1) :=
  ⟨by decide, by decide, rfl⟩

/-- C5. The code at a stale job whose id is the empty string.  The classifier
is the one reached by adding "x", deleting it and adding "y" (so `ready` is
"x", "y" with "x" no longer in the job map); its job map and buckets do not
mention the empty id.  After `add` of the stale job and one uncancelled
`refilter`, the empty id is in `stalled` and also in `ready`, where
`updateReady` wrote it in place of "x". -/
theorem stale_empty_id_reaches_ready :
    mapHas (applyOps empty
        [Op.add (plainJob "x" dependency.State.Ready), Op.delete List.range "x",
          Op.add (plainJob "y" dependency.State.Ready)]).jobs "" = false
      ∧ bucketsOf (applyOps empty
        [Op.add (plainJob "x" dependency.State.Ready), Op.delete List.range "x",
          Op.add (plainJob "y" dependency.State.Ready)]) "" = []
      ∧ (refilter none List.range (add (applyOps empty
        [Op.add (plainJob "x" dependency.State.Ready), Op.delete List.range "x",
          Op.add (plainJob "y" dependency.State.Ready)])
          ⟨"", ⟨false, false⟩, ⟨true, true⟩, dependency.State.Blocked⟩).1).1
        = { jobs := [("", ⟨"", ⟨false, false⟩, ⟨true, true⟩, dependency.State.Blocked⟩),
                     ("y", plainJob "y" dependency.State.Ready)],
            ready := ["", "y"], waiting := [], stalled := [""], completed := [], passed := [] } := by
  decide

/-- C8. The code at a job "a" with dependency state Passed that was added
while not dispatchable (so it is listed in `waiting` only) and has become
dispatchable: after one uncancelled `refilter` it is still in the job map and
listed in no bucket. -/
theorem refilter_drops_passed_job :
    liveInOneBucket (add empty ⟨"a", ⟨false, false⟩, ⟨false, false⟩, dependency.State.Passed⟩).1
      ∧ (add empty ⟨"a", ⟨false, false⟩, ⟨false, false⟩, dependency.State.Passed⟩).1.waiting = ["a"]
      ∧ refilterWith (add empty ⟨"a", ⟨false, false⟩, ⟨false, false⟩, dependency.State.Passed⟩).1
          ([("a", plainJob "a" dependency.State.Passed)], List.range)
        = { jobs := [("a", plainJob "a" dependency.State.Passed)],
            ready := [], waiting := [], stalled := [], completed := [], passed := [] }
      ∧ bucketsOf (refilterWith
          (add empty ⟨"a", ⟨false, false⟩, ⟨false, false⟩, dependency.State.Passed⟩).1
          ([("a", plainJob "a" dependency.State.Passed)], List.range)) "a" = [] := by
  decide

/-! ## delete, updateReady and interrupted passes -/

theorem updateCompletedLoop_jobs (ctx : Ctx) (items : adaptiveOrderItems) (new l : List String) :
    (updateCompletedLoop ctx items new l).1.jobs = items.jobs := by
  induction l generalizing ctx new with
  | nil => rfl
  | cons id rest ih =>
    rw [updateCompletedLoop]
    split
    · rfl
    · split <;> exact ih _ _

theorem updatePassedLoop_jobs (ctx : Ctx) (items : adaptiveOrderItems) (new l : List String) :
    (updatePassedLoop ctx items new l).1.jobs = items.jobs := by
  induction l generalizing ctx new with
  | nil => rfl
  | cons id rest ih =>
    rw [updatePassedLoop]
    split
    · rfl
    · split <;> exact ih _ _

theorem updateWaitingLoop_jobs (ctx : Ctx) (items : adaptiveOrderItems) (new l : List String) :
    (updateWaitingLoop ctx items new l).1.jobs = items.jobs := by
  induction l generalizing ctx items new with
  | nil => rfl
  | cons id rest ih =>
    rw [updateWaitingLoop]
    split
    · rfl
    · split
      · exact ih _ _ _
      · repeat' split
        all_goals (rw [ih]; try rfl)

theorem updateStalledLoop_jobs (ctx : Ctx) (items : adaptiveOrderItems) (new l : List String) :
    (updateStalledLoop ctx items new l).1.jobs = items.jobs := by
  induction l generalizing ctx items new with
  | nil => rfl
  | cons id rest ih =>
    rw [updateStalledLoop]
    split
    · rfl
    · split
      · exact ih _ _ _
      · repeat' split
        all_goals (rw [ih]; try rfl)

theorem updateReadyLoop_jobs (ctx : Ctx) (items : adaptiveOrderItems) (new : List String)
    (i : Nat) (l : List Nat) :
    (updateReadyLoop ctx items new i l).1.jobs = items.jobs := by
  induction l generalizing ctx new i with
  | nil => rfl
  | cons r rest ih =>
    rw [updateReadyLoop]
    split
    · rfl
    · split <;> exact ih _ _ _

theorem updateReady_jobs (ctx : Ctx) (perm : RandPerm) (items : adaptiveOrderItems) :
    (updateReady ctx perm items).1.jobs = items.jobs := by
  unfold updateReady
  split
  · exact updateReadyLoop_jobs _ _ _ _ _
  · rfl

theorem mapHas_mapDelete_self (m : JobMap) (id : String) : mapHas (mapDelete m id) id = false := by
  unfold mapHas
  rw [mapGet_mapDelete_self]
  rfl

/-- C18. `delete` under any context, cancelled at any point or never: when
the id is not in the job map the count is 0 and the whole classifier is
unchanged; when it is, the count is 1, the job map is the old one without the
id, and the id is no longer in it. -/
theorem delete_count_and_map (ctx : Ctx) (perm : RandPerm) (items : adaptiveOrderItems)
    (id : String) :
    (mapHas items.jobs id = false → delete ctx perm items id = (items, 0))
      ∧ (mapHas items.jobs id = true →
          (delete ctx perm items id).2 = 1
            ∧ (delete ctx perm items id).1.jobs = mapDelete items.jobs id
            ∧ mapHas (delete ctx perm items id).1.jobs id = false) := by
  constructor
  · intro h
    simp [delete, h]
  · intro h
    have hj : (delete ctx perm items id).1.jobs = mapDelete items.jobs id := by
      simp only [delete, h, Bool.not_true, Bool.false_eq_true, if_false]
      rw [updateReady_jobs]
      unfold updateStalled
      rw [updateStalledLoop_jobs]
      unfold updateWaiting
      rw [updateWaitingLoop_jobs]
      unfold updatePassed
      rw [updatePassedLoop_jobs]
      unfold updateCompleted
      rw [updateCompletedLoop_jobs]
    refine ⟨by simp [delete, h], hj, ?_⟩
    rw [hj]
    exact mapHas_mapDelete_self _ _

theorem delete_count_and_map_witness :
    (delete (some 1) List.range
        { jobs := [("a", plainJob "a" dependency.State.Ready),
                   ("b", plainJob "b" dependency.State.Blocked)],
          ready := ["a"], waiting := ["b"], stalled := [], completed := [],
          passed := [] } "a").2 = 1
      ∧ delete none List.range empty "a" = (empty, 0) :=
  ⟨((delete_count_and_map (some 1) List.range
      { jobs := [("a", plainJob "a" dependency.State.Ready),
                 ("b", plainJob "b" dependency.State.Blocked)],
        ready := ["a"], waiting := ["b"], stalled := [], completed := [],
        passed := [] } "a").2 (by decide)).1,
   (delete_count_and_map none List.range empty "a").1 (by decide)⟩

/-- C19. The code at two inputs, under an uncancelled context.  With `ready`
holding "a" (no longer in the job map) and "b", `updateReady` leaves the
empty string in the place of "a": the result is not a permutation of the
entries still in the job map.  With `ready` holding only "a", which is not
in the job map, `updateReady` changes nothing and "a" stays. -/
theorem updateReady_leaves_dead_entries :
    (updateReady none List.range
        { jobs := [("b", plainJob "b" dependency.State.Ready)],
          ready := ["a", "b"], waiting := [], stalled := [], completed := [], passed := [] }
        = ({ jobs := [("b", plainJob "b" dependency.State.Ready)],
             ready := ["", "b"], waiting := [], stalled := [], completed := [],
             passed := [] }, none)
      ∧ ¬ specReadyPruned [("b", plainJob "b" dependency.State.Ready)] ["a", "b"] ["", "b"])
    ∧ (updateReady none List.range
        { jobs := [], ready := ["a"], waiting := [], stalled := [], completed := [],
          passed := [] }
        = ({ jobs := [], ready := ["a"], waiting := [], stalled := [], completed := [],
             passed := [] }, none)
      ∧ ¬ specReadyPruned [] ["a"] ["a"]) := by
  decide

/-- C16. The code at an interrupted refilter.  Jobs "a" (not dispatchable,
stale) and "b" (not dispatchable) are added to the empty classifier: both are
in `waiting`, each live id is listed once.  A refilter is cancelled after the
first `Err()` check of `updateWaiting`: "a" has been appended to `stalled`
but `waiting` is not replaced.  The next refilter, never cancelled, appends
"a" to `stalled` again: "a" is listed twice. -/
theorem interrupted_refilter_lists_twice :
    liveListedOnce (applyOps empty
        [Op.add ⟨"a", ⟨false, false⟩, ⟨false, true⟩, dependency.State.Ready⟩,
         Op.add ⟨"b", ⟨false, false⟩, ⟨false, false⟩, dependency.State.Ready⟩])
      ∧ refilter (some 1) List.range (applyOps empty
        [Op.add ⟨"a", ⟨false, false⟩, ⟨false, true⟩, dependency.State.Ready⟩,
         Op.add ⟨"b", ⟨false, false⟩, ⟨false, false⟩, dependency.State.Ready⟩])
        = ({ jobs := [("b", ⟨"b", ⟨false, false⟩, ⟨false, false⟩, dependency.State.Ready⟩),
                      ("a", ⟨"a", ⟨false, false⟩, ⟨false, true⟩, dependency.State.Ready⟩)],
             ready := [], waiting := ["a", "b"], stalled := ["a"], completed := [],
             passed := [] }, some 0)
      ∧ refilter none List.range (refilter (some 1) List.range (applyOps empty
        [Op.add ⟨"a", ⟨false, false⟩, ⟨false, true⟩, dependency.State.Ready⟩,
         Op.add ⟨"b", ⟨false, false⟩, ⟨false, false⟩, dependency.State.Ready⟩])).1
        = ({ jobs := [("b", ⟨"b", ⟨false, false⟩, ⟨false, false⟩, dependency.State.Ready⟩),
                      ("a", ⟨"a", ⟨false, false⟩, ⟨false, true⟩, dependency.State.Ready⟩)],
             ready := [], waiting := ["b"], stalled := ["a", "a"], completed := [],
             passed := [] }, none)
      ∧ ¬ liveListedOnce (refilter none List.range (refilter (some 1) List.range (applyOps empty
        [Op.add ⟨"a", ⟨false, false⟩, ⟨false, true⟩, dependency.State.Ready⟩,
         Op.add ⟨"b", ⟨false, false⟩, ⟨false, false⟩, dependency.State.Ready⟩])).1).1 := by
  decide

/-- C20. The code at a job that is not dispatchable and whose id is the empty
string.  The classifier is the one reached by adding "x", deleting it and
adding "y"; its buckets do not list the empty id.  After `add` the id is not
in `ready`; after one uncancelled refilter, the job still not dispatchable,
`ready` holds the empty string, written by `updateReady` in place of "x",
while the job is still listed in `waiting`. -/
theorem waiting_empty_id_reaches_ready :
    bucketsOf (applyOps empty
        [Op.add (plainJob "x" dependency.State.Ready), Op.delete List.range "x",
          Op.add (plainJob "y" dependency.State.Ready)]) "" = []
      ∧ (add (applyOps empty
        [Op.add (plainJob "x" dependency.State.Ready), Op.delete List.range "x",
          Op.add (plainJob "y" dependency.State.Ready)])
          ⟨"", ⟨false, false⟩, ⟨false, false⟩, dependency.State.Ready⟩).1.ready = ["x", "y"]
      ∧ (refilterRun (add (applyOps empty
        [Op.add (plainJob "x" dependency.State.Ready), Op.delete List.range "x",
          Op.add (plainJob "y" dependency.State.Ready)])
          ⟨"", ⟨false, false⟩, ⟨false, false⟩, dependency.State.Ready⟩).1
          [([("", ⟨"", ⟨false, false⟩, ⟨false, false⟩, dependency.State.Ready⟩),
             ("y", plainJob "y" dependency.State.Ready)], List.range)]).ready = ["", "y"]
      ∧ (refilterRun (add (applyOps empty
        [Op.add (plainJob "x" dependency.State.Ready), Op.delete List.range "x",
          Op.add (plainJob "y" dependency.State.Ready)])
          ⟨"", ⟨false, false⟩, ⟨false, false⟩, dependency.State.Ready⟩).1
          [([("", ⟨"", ⟨false, false⟩, ⟨false, false⟩, dependency.State.Ready⟩),
             ("y", plainJob "y" dependency.State.Ready)], List.range)]).waiting = [""] := by
  decide

/-! ## Jobs that are not dispatchable -/

/-- When all ready ids are in the job map, an uncancelled `updateReady`
permutes `ready`. -/
theorem readyPass_perm_of_live (perm : RandPerm) (items : adaptiveOrderItems)
    (hv : validPerm perm) (hlive : ∀ y ∈ items.ready, mapHas items.jobs y = true) :
    List.Perm (readyPass perm items).ready items.ready := by
  unfold readyPass
  split
  · have hp := (hv items.ready.length).map (readySlot items)
    rw [map_readySlot_range items (fun y hy hf => by rw [hlive y hy] at hf; cases hf)] at hp
    exact hp
  · exact List.Perm.refl _

theorem refilterWith_keeps_unready (s : adaptiveOrderItems) (st : JobMap × RandPerm)
    (id : String) (was : Bool) (hid : id ≠ "") (hv : validPerm st.2) (j : Job)
    (hget : mapGet st.1 id = some j) (hd : j.TimeInfo.IsDispatchable = false)
    (hwas : was = true → j.TimeInfo.IsStale = true)
    (hr : id ∉ s.ready) (hst : id ∈ s.stalled → was = true) :
    id ∉ (refilterWith s st).ready
      ∧ (id ∈ (refilterWith s st).stalled → j.TimeInfo.IsStale = true) := by
  have htw : waitingTarget st.1 id ≠ Target.ready := by
    cases hs : j.TimeInfo.IsStale <;> simp [waitingTarget, hget, hd, hs]
  have htw2 : waitingTarget st.1 id = Target.stalled → j.TimeInfo.IsStale = true := by
    cases hs : j.TimeInfo.IsStale <;> simp [waitingTarget, hget, hd, hs]
  have hts : j.TimeInfo.IsStale = true → stalledTarget st.1 id = Target.stalled := by
    intro hs
    simp [stalledTarget, hget, hs]
  unfold refilterWith
  rw [refilter_none _ _ hv]
  obtain ⟨_, _, hfs, _, _⟩ :=
    readyPass_frame st.2 (stalledPass (waitingPass { s with jobs := st.1 }))
  have hs1 : id ∈ (waitingPass { s with jobs := st.1 }).stalled → j.TimeInfo.IsStale = true := by
    simp only [waitingPass, List.mem_append, mem_sentTo]
    rintro (h | h)
    · exact hwas (hst h)
    · exact htw2 h.2
  have hr1 : id ∉ (waitingPass { s with jobs := st.1 }).ready := by
    simp only [waitingPass, List.mem_append, mem_sentTo]
    rintro (h | h)
    · exact hr h
    · exact htw h.2
  have hr2 : id ∉ (stalledPass (waitingPass { s with jobs := st.1 })).ready := by
    simp only [stalledPass, List.mem_append, mem_sentTo]
    rintro (h | h)
    · exact hr1 h
    · have h2 : stalledTarget st.1 id = Target.ready := h.2
      rw [hts (hs1 h.1)] at h2
      cases h2
  have hs2 : id ∈ (stalledPass (waitingPass { s with jobs := st.1 })).stalled →
      j.TimeInfo.IsStale = true := by
    simp only [stalledPass, mem_sentTo]
    intro h
    exact hs1 h.1
  refine ⟨?_, ?_⟩
  · intro h
    rcases mem_readyPass_ready _ _ _ h with h | h
    · exact hr2 h
    · exact hid h
  · rw [hfs]; exact hs2

theorem refilterRun_keeps_unready (steps : List (JobMap × RandPerm)) (s : adaptiveOrderItems)
    (id : String) (was : Bool) (hid : id ≠ "")
    (hrun : staysUndispatchable id was steps)
    (hr : id ∉ s.ready) (hst : id ∈ s.stalled → was = true) :
    id ∉ (refilterRun s steps).ready := by
  induction steps generalizing s was with
  | nil => exact hr
  | cons st rest ih =>
    obtain ⟨hv, j, hget, hd, hwas, hrest⟩ := hrun
    have h := refilterWith_keeps_unready s st id was hid hv j hget hd hwas hr hst
    exact ih (refilterWith s st) j.TimeInfo.IsStale hrest h.1 h.2

/-- A job with a non-empty id that is not dispatchable when added (to a
classifier whose buckets do not list its id) is not in `ready` after `add` nor
after any run of uncancelled refilters through which it stays not
dispatchable, whatever becomes of its status and dependency state, a passed
deadline staying passed. -/
theorem undispatchable_job_never_ready (items : adaptiveOrderItems) (j : Job)
    (steps : List (JobMap × RandPerm))
    (hid : j.ID ≠ "")
    (hfresh : ∀ b, j.ID ∉ bucket items b)
    (hd : j.TimeInfo.IsDispatchable = false)
    (hrun : staysUndispatchable j.ID j.TimeInfo.IsStale steps) :
    j.ID ∉ (refilterRun (add items j).1 steps).ready := by
  have hr := hfresh Bucket.ready
  have hs := hfresh Bucket.stalled
  simp only [bucket] at hr hs
  have hadd : j.ID ∉ (add items j).1.ready ∧ j.ID ∉ (add items j).1.stalled := by
    rcases j with ⟨jid, ⟨c, p⟩, ⟨d, s⟩, dep⟩
    simp only at hd hr hs
    subst hd
    cases hhas : mapHas items.jobs jid <;> cases c <;> simp [add, hhas, hr, hs]
  exact refilterRun_keeps_unready steps (add items j).1 j.ID j.TimeInfo.IsStale hid hrun
    hadd.1 (fun h => absurd h hadd.2)

end adaptiveOrderItems

/-! ## The claim precondition -/

namespace pgq

theorem filter_key_unique {α : Type} (key : α → String) (l : List α)
    (hn : (l.map key).Nodup) (x : α) (hx : x ∈ l) :
    l.filter (fun y => decide (key y = key x)) = [x] := by
  induction l with
  | nil => cases hx
  | cons y t ih =>
    rw [List.map_cons, List.nodup_cons] at hn
    obtain ⟨hy, hnt⟩ := hn
    rcases List.mem_cons.mp hx with h | h
    · subst h
      have ht : t.filter (fun y => decide (key y = key x)) = [] := by
        rw [List.filter_eq_nil_iff]
        intro z hz hk
        apply hy
        rw [List.mem_map]
        exact ⟨z, hz, by simpa using hk⟩
      simp [List.filter_cons, ht]
    · have hne : key y ≠ key x := by
        intro hk
        apply hy
        rw [List.mem_map]
        exact ⟨x, h, hk.symm⟩
      simp [List.filter_cons, hne, ih hnt h]

theorem mem_jobsJoinStatus (jobs : List JobsRow) (status : List JobStatusRow)
    (r : JobsRow × JobStatusRow) :
    r ∈ jobsJoinStatus jobs status ↔ r.1 ∈ jobs ∧ r.2 ∈ status ∧ r.1.id = r.2.id := by
  rcases r with ⟨j, s⟩
  simp only [jobsJoinStatus, List.mem_flatMap, List.mem_map, List.mem_filter, decide_eq_true_eq,
    Prod.mk.injEq]
  constructor
  · rintro ⟨j2, hj2, s2, ⟨hs2, hid⟩, rfl, rfl⟩
    exact ⟨hj2, hs2, hid⟩
  · rintro ⟨hj, hs, hid⟩
    exact ⟨j, hj, s, ⟨hs, hid⟩, rfl, rfl⟩

theorem filter_join (a : CanUpdateArgs) (jobs : List JobsRow) (status : List JobStatusRow) :
    (jobsJoinStatus jobs status).filter (checkCanUpdateWhere a) =
      (jobs.filter (fun j => decide (j.id = a.id))).flatMap (fun j =>
        ((status.filter (fun s => decide (j.id = s.id))).filter (leaseTest a)).map
          (fun s => (j, s))) := by
  induction jobs with
  | nil => rfl
  | cons j t ih =>
    unfold jobsJoinStatus at *
    rw [List.flatMap_cons, List.filter_append, ih, List.filter_cons]
    by_cases hj : j.id = a.id
    · simp only [hj, decide_True, if_true, List.flatMap_cons]
      congr 1
      rw [List.filter_map]
      congr 1
      apply List.filter_congr
      intro s _
      simp [checkCanUpdateWhere, leaseTest, hj]
    · simp only [hj, decide_False, Bool.false_eq_true, if_false]
      have : List.filter (checkCanUpdateWhere a)
          (List.map (fun s => (j, s)) (List.filter (fun s => decide (j.id = s.id)) status)) = [] := by
        rw [List.filter_eq_nil_iff]
        intro r hr
        simp only [List.mem_map] at hr
        obtain ⟨s, _, rfl⟩ := hr
        simp [checkCanUpdateWhere, hj]
      rw [this, List.nil_append]

/-- C9, amended. In tables keyed by `id`, for a job with status row `s`:
`checkCanUpdate` counts 1 when (a) the stored owner is the supplied owner and
the stored `mod_count` is the supplied `mod_count` minus one, or (b) the
stored `mod_ts` is at or before the lock-expiry instant; it counts 0
otherwise. -/
theorem checkCanUpdate_count (jobs : List JobsRow) (status : List JobStatusRow)
    (j : JobsRow) (s : JobStatusRow) (owner : String) (mod_count lock_timeout : Int)
    (hjk : (jobs.map JobsRow.id).Nodup) (hsk : (status.map JobStatusRow.id).Nodup)
    (hj : j ∈ jobs) (hs : s ∈ status) (hjs : j.id = s.id) :
    checkCanUpdate jobs status ⟨s.id, owner, mod_count, lock_timeout⟩ =
      if (s.owner = owner ∧ s.mod_count = mod_count - 1) ∨ s.mod_ts ≤ lock_timeout
      then 1 else 0 := by
  unfold checkCanUpdate
  rw [filter_join]
  have h1 := filter_key_unique JobsRow.id jobs hjk j hj
  have h2 := filter_key_unique JobStatusRow.id status hsk s hs
  simp only [hjs] at h1
  have h2b : status.filter (fun s2 => decide (j.id = s2.id)) = [s] := by
    rw [← h2]
    apply List.filter_congr
    intro x _
    rw [hjs]
    simp [eq_comm]
  simp only [h1, List.flatMap_cons, List.flatMap_nil, List.append_nil, h2b]
  by_cases hc : (s.owner = owner ∧ s.mod_count = mod_count - 1) ∨ s.mod_ts ≤ lock_timeout
  · rw [if_pos hc]
    have : leaseTest ⟨s.id, owner, mod_count, lock_timeout⟩ s = true := by
      simp only [leaseTest, Bool.or_eq_true, Bool.and_eq_true, decide_eq_true_eq]
      rcases hc with ⟨ho, hm⟩ | ht
      · by_cases hts : s.mod_ts ≤ lock_timeout
        · exact Or.inr hts
        · exact Or.inl ⟨⟨ho, hm⟩, by omega⟩
      · exact Or.inr ht
    simp [List.filter_cons, this]
  · rw [if_neg hc]
    have : leaseTest ⟨s.id, owner, mod_count, lock_timeout⟩ s = false := by
      rw [Bool.eq_false_iff]
      intro h
      apply hc
      simp only [leaseTest, Bool.or_eq_true, Bool.and_eq_true, decide_eq_true_eq] at h
      rcases h with ⟨⟨ho, hm⟩, _⟩ | ht
      · exact Or.inl ⟨ho, hm⟩
      · exact Or.inr ht
    simp [List.filter_cons, this]

theorem checkCanUpdate_count_witness :
    checkCanUpdate [⟨"job", "t", "", 0, 0⟩] [⟨"job", "w", false, true, 100, 4, 0⟩]
      ⟨"job", "w", 5, 50⟩ = 1 := by
  have h := checkCanUpdate_count [⟨"job", "t", "", 0, 0⟩] [⟨"job", "w", false, true, 100, 4, 0⟩]
    ⟨"job", "t", "", 0, 0⟩ ⟨"job", "w", false, true, 100, 4, 0⟩ "w" 5 50
    (by decide) (by decide) (by decide) (by decide) rfl
  simpa using h

/-- C9, as stated, fails on the code at two inputs.  With the stored owner
and the stored `mod_count` both equal to the supplied ones and an unexpired
lease the query counts 0 while the stated precondition holds; with a foreign
owner and `mod_ts` equal to the lock-expiry instant the query counts 1 while
the stated precondition does not hold. -/
theorem checkCanUpdate_differs_from_spec :
    (checkCanUpdate [⟨"job", "t", "", 0, 0⟩] [⟨"job", "w", false, true, 100, 5, 0⟩]
        ⟨"job", "w", 5, 50⟩ = 0
      ∧ specClaimPrecondition ⟨"job", "w", false, true, 100, 5, 0⟩ "w" 5 50 = true)
    ∧ (checkCanUpdate [⟨"job", "t", "", 0, 0⟩] [⟨"job", "w", false, true, 100, 5, 0⟩]
        ⟨"job", "v", 9, 100⟩ = 1
      ∧ specClaimPrecondition ⟨"job", "w", false, true, 100, 5, 0⟩ "v" 9 100 = false) := by
  decide

theorem updateJobStatus_row (status : List JobStatusRow) (a s2 : JobStatusRow)
    (h : s2 ∈ updateJobStatus status a) (hid : s2.id = a.id) :
    s2.owner = a.owner ∧ s2.mod_ts = a.mod_ts ∧ s2.mod_count = a.mod_count := by
  unfold updateJobStatus at h
  rw [List.mem_map] at h
  obtain ⟨s, _, rfl⟩ := h
  by_cases hs : s.id = a.id
  · simp [hs]
  · rw [if_neg hs] at hid
    exact absurd hid hs

/-- C10. The first worker passes `checkCanUpdate` and its `updateJobStatus`
is applied with the row `a1` (owner the first worker, `mod_ts` its instant
now, `mod_count` the supplied value); the lock timeout is positive.  A second
worker with another owner name and the same `mod_count` then fails
`checkCanUpdate` on the updated table (count 0), whatever the tables held
before: at the same instant, and at every instant `now2` before the first
worker's lease runs out.  So exactly the first of the two checks succeeds. -/
theorem second_claim_fails (jobs : List JobsRow) (status : List JobStatusRow)
    (a1 : JobStatusRow) (w2 : String) (timeout : Int)
    (hw : w2 ≠ a1.owner) (ht : 0 < timeout)
    (hfirst : 0 < checkCanUpdate jobs status
      ⟨a1.id, a1.owner, a1.mod_count, a1.mod_ts - timeout⟩) :
    0 < checkCanUpdate jobs status ⟨a1.id, a1.owner, a1.mod_count, a1.mod_ts - timeout⟩
      ∧ checkCanUpdate jobs (updateJobStatus status a1)
          ⟨a1.id, w2, a1.mod_count, a1.mod_ts - timeout⟩ = 0
      ∧ ∀ now2 : Int, now2 < a1.mod_ts + timeout →
          checkCanUpdate jobs (updateJobStatus status a1)
            ⟨a1.id, w2, a1.mod_count, now2 - timeout⟩ = 0 := by
  have key : ∀ lt : Int, lt < a1.mod_ts →
      checkCanUpdate jobs (updateJobStatus status a1) ⟨a1.id, w2, a1.mod_count, lt⟩ = 0 := by
    intro lt hlt
    unfold checkCanUpdate
    rw [List.length_eq_zero, List.filter_eq_nil_iff]
    intro r hr hwhere
    rw [mem_jobsJoinStatus] at hr
    obtain ⟨_, hs, hid⟩ := hr
    simp only [checkCanUpdateWhere, Bool.and_eq_true, Bool.or_eq_true, decide_eq_true_eq]
      at hwhere
    obtain ⟨hrid, hcond⟩ := hwhere
    obtain ⟨ho, hts, _⟩ := updateJobStatus_row status a1 r.2 hs (hid.symm.trans hrid)
    rcases hcond with ⟨⟨h1, _⟩, _⟩ | h2
    · exact hw (h1.symm.trans ho)
    · rw [hts] at h2; omega
  exact ⟨hfirst, key _ (by omega), fun now2 h2 => key _ (by omega)⟩

theorem second_claim_fails_witness :
    0 < (30 : Int)
      ∧ checkCanUpdate [⟨"job", "t", "", 0, 0⟩]
          (updateJobStatus [⟨"job", "", false, false, 0, 0, 0⟩]
            ⟨"job", "w1", false, true, 100, 1, 0⟩)
          ⟨"job", "w2", 1, 100 - 30⟩ = 0 :=
  ⟨by decide,
    (second_claim_fails [⟨"job", "t", "", 0, 0⟩] [⟨"job", "", false, false, 0, 0, 0⟩]
      ⟨"job", "w1", false, true, 100, 1, 0⟩ "w2" 30 (by decide) (by decide) (by decide)).2.1⟩

/-! ## Stealing, completion and scopes -/

/-- In keyed tables the count of `checkCanUpdate` for the job of row `s` is 1
when the lease test passes on `s`, and 0 otherwise. -/
theorem checkCanUpdate_row (jobs : List JobsRow) (status : List JobStatusRow)
    (j : JobsRow) (s : JobStatusRow) (a : CanUpdateArgs)
    (hjk : jobsKeyed jobs) (hsk : statusKeyed status)
    (hj : j ∈ jobs) (hs : s ∈ status) (hjs : j.id = s.id) (ha : a.id = s.id) :
    checkCanUpdate jobs status a = if leaseTest a s then 1 else 0 := by
  unfold checkCanUpdate
  rw [filter_join]
  have h1 := filter_key_unique JobsRow.id jobs hjk j hj
  have h2 := filter_key_unique JobStatusRow.id status hsk s hs
  rw [hjs, ← ha] at h1
  have h2b : status.filter (fun s2 => decide (j.id = s2.id)) = [s] := by
    rw [← h2]
    apply List.filter_congr
    intro x _
    rw [hjs]
    simp [eq_comm]
  simp only [h1, List.flatMap_cons, List.flatMap_nil, List.append_nil, h2b]
  cases h : leaseTest a s <;> simp [List.filter_cons, h]

theorem leaseTest_of_expired (a : CanUpdateArgs) (s : JobStatusRow)
    (h : s.mod_ts ≤ a.lock_timeout) : leaseTest a s = true := by
  simp [leaseTest, h]

/-- C11. In keyed tables, a job whose status row has `mod_ts` at or before
the lock-expiry instant passes `checkCanUpdate` (count 1) for every supplied
owner name and `mod_count`, whoever the stored owner is: an abandoned claim
can always be stolen. -/
theorem expired_lease_is_stealable (jobs : List JobsRow) (status : List JobStatusRow)
    (j : JobsRow) (s : JobStatusRow) (owner : String) (mod_count lock_timeout : Int)
    (hjk : jobsKeyed jobs) (hsk : statusKeyed status)
    (hj : j ∈ jobs) (hs : s ∈ status) (hjs : j.id = s.id)
    (hexp : s.mod_ts ≤ lock_timeout) :
    checkCanUpdate jobs status ⟨s.id, owner, mod_count, lock_timeout⟩ = 1 := by
  rw [checkCanUpdate_row jobs status j s _ hjk hsk hj hs hjs rfl,
    leaseTest_of_expired _ s hexp]
  rfl

theorem expired_lease_is_stealable_witness :
    checkCanUpdate [⟨"job", "t", "", 0, 0⟩] [⟨"job", "w", false, true, 100, 7, 0⟩]
      ⟨"job", "thief", 3, 100⟩ = 1 :=
  expired_lease_is_stealable [⟨"job", "t", "", 0, 0⟩] [⟨"job", "w", false, true, 100, 7, 0⟩]
    ⟨"job", "t", "", 0, 0⟩ ⟨"job", "w", false, true, 100, 7, 0⟩ "thief" 3 100
    (by decide) (by decide) (by decide) (by decide) rfl (by decide)

theorem forall2_map_self {α : Type} (R : α → α → Prop) (f : α → α) (l : List α)
    (h : ∀ x ∈ l, R x (f x)) : List.Forall₂ R l (l.map f) := by
  induction l with
  | nil => exact List.Forall₂.nil
  | cons x t ih =>
    exact List.Forall₂.cons (h x (List.mem_cons_self _ _))
      (ih (fun y hy => h y (List.mem_cons_of_mem _ hy)))

/-- C14. `completeSinglePendingJob`, row by row: a row with the given id
gets `completed = true`, `in_progress = false` and `mod_count` raised by 3,
and keeps its id, owner, `mod_ts` and `err_count`, whatever it held before;
every other row is unchanged; and when no row has the id the table is
unchanged. -/
theorem completeSinglePendingJob_effect (status : List JobStatusRow) (id : String) :
    List.Forall₂
        (fun s t =>
          if s.id = id then
            t.id = s.id ∧ t.completed = true ∧ t.in_progress = false
              ∧ t.mod_count = s.mod_count + 3
              ∧ t.owner = s.owner ∧ t.mod_ts = s.mod_ts ∧ t.err_count = s.err_count
          else t = s)
        status (completeSinglePendingJob status id)
      ∧ ((∀ s ∈ status, s.id ≠ id) → completeSinglePendingJob status id = status) := by
  constructor
  · unfold completeSinglePendingJob
    apply forall2_map_self
    intro s _
    by_cases h : s.id = id
    · simp [h, markCompleted]
    · simp [h]
  · intro h
    unfold completeSinglePendingJob
    conv => rhs; rw [← List.map_id status]
    apply List.map_congr_left
    intro s hs
    simp [h s hs]

theorem completeSinglePendingJob_effect_witness :
    completeSinglePendingJob [⟨"a", "w", false, true, 100, 4, 1⟩] "b"
      = [⟨"a", "w", false, true, 100, 4, 1⟩] :=
  (completeSinglePendingJob_effect [⟨"a", "w", false, true, 100, 4, 1⟩] "b").2 (by decide)

theorem completeMany_cons (status : List JobStatusRow) (id : String) (rest : List String)
    (h : id ∉ rest) :
    completeManyPendingJobs status (id :: rest)
      = completeManyPendingJobs (completeSinglePendingJob status id) rest := by
  unfold completeManyPendingJobs completeSinglePendingJob
  rw [List.map_map]
  apply List.map_congr_left
  intro s _
  by_cases hs : s.id = id
  · have h2 : s.id ∉ rest := by rw [hs]; exact h
    simp [hs, h, markCompleted]
  · simp [hs]

theorem completeMany_nil (status : List JobStatusRow) :
    completeManyPendingJobs status [] = status := by
  unfold completeManyPendingJobs
  simp

theorem removeMany_cons (scopes : List JobScopesRow) (id : String) (rest : List String) :
    removeManyJobScopes scopes (id :: rest)
      = removeManyJobScopes (removeJobScopes scopes id) rest := by
  unfold removeManyJobScopes removeJobScopes
  rw [List.filter_filter]
  apply List.filter_congr
  intro r _
  by_cases h : r.id = id <;> simp [h]

theorem removeMany_nil (scopes : List JobScopesRow) :
    removeManyJobScopes scopes [] = scopes := by
  unfold removeManyJobScopes
  simp

/-- C15, amended. For a list of ids without repetition,
`completeManyPendingJobs` leaves the table as `completeSinglePendingJob`
applied to each id in turn does; for every list of ids, `removeManyJobScopes`
leaves the table as `removeJobScopes` applied to each id in turn does. -/
theorem batch_equals_per_id (status : List JobStatusRow) (scopes : List JobScopesRow)
    (ids : List String) :
    (ids.Nodup →
        completeManyPendingJobs status ids = ids.foldl completeSinglePendingJob status)
      ∧ removeManyJobScopes scopes ids = ids.foldl removeJobScopes scopes := by
  constructor
  · intro hn
    induction ids generalizing status with
    | nil => exact completeMany_nil status
    | cons id rest ih =>
      rw [List.nodup_cons] at hn
      rw [completeMany_cons status id rest hn.1, List.foldl_cons]
      exact ih _ hn.2
  · induction ids generalizing scopes with
    | nil => exact removeMany_nil scopes
    | cons id rest ih =>
      rw [removeMany_cons, List.foldl_cons]
      exact ih _

theorem batch_equals_per_id_witness :
    completeManyPendingJobs [⟨"a", "w", false, true, 100, 4, 0⟩, ⟨"b", "", false, false, 0, 0, 0⟩]
        ["b", "a"]
      = ["b", "a"].foldl completeSinglePendingJob
        [⟨"a", "w", false, true, 100, 4, 0⟩, ⟨"b", "", false, false, 0, 0, 0⟩] :=
  (batch_equals_per_id [⟨"a", "w", false, true, 100, 4, 0⟩, ⟨"b", "", false, false, 0, 0, 0⟩]
    [] ["b", "a"]).1 (by decide)

/-- C15, as stated, fails on the code at a list that names an id twice: the
batch statement raises `mod_count` by 3 once (from 4 to 7), the single
statement applied per id raises it twice (to 10). -/
theorem batch_differs_on_repeated_id :
    completeManyPendingJobs [⟨"a", "w", false, true, 100, 4, 0⟩] ["a", "a"]
        = [⟨"a", "w", true, false, 100, 7, 0⟩]
      ∧ ["a", "a"].foldl completeSinglePendingJob [⟨"a", "w", false, true, 100, 4, 0⟩]
        = [⟨"a", "w", true, false, 100, 10, 0⟩] := by
  decide

/-- C13, amended. `completeSinglePendingJob` and `completeManyPendingJobs`
leave every completed row completed.  `updateJobStatus` stores the supplied
`:completed` in the row it addresses (and touches no other row), so a
completed row stays completed when the caller supplies `completed = true`. -/
theorem completed_kept (status : List JobStatusRow) (id : String) (ids : List String)
    (a : JobStatusRow) :
    List.Forall₂ (fun s t => t.id = s.id ∧ (s.completed = true → t.completed = true))
        status (completeSinglePendingJob status id)
      ∧ List.Forall₂ (fun s t => t.id = s.id ∧ (s.completed = true → t.completed = true))
        status (completeManyPendingJobs status ids)
      ∧ List.Forall₂
        (fun s t => t.id = s.id
          ∧ t.completed = if s.id = a.id then a.completed else s.completed)
        status (updateJobStatus status a)
      ∧ (a.completed = true →
          List.Forall₂ (fun s t => t.id = s.id ∧ (s.completed = true → t.completed = true))
            status (updateJobStatus status a)) := by
  refine ⟨?_, ?_, ?_, ?_⟩
  · unfold completeSinglePendingJob
    apply forall2_map_self
    intro s _
    by_cases h : s.id = id <;> simp [h, markCompleted]
  · unfold completeManyPendingJobs
    apply forall2_map_self
    intro s _
    by_cases h : s.id ∈ ids <;> simp [h, markCompleted]
  · unfold updateJobStatus
    apply forall2_map_self
    intro s _
    by_cases h : s.id = a.id <;> simp [h]
  · intro ha
    unfold updateJobStatus
    apply forall2_map_self
    intro s _
    by_cases h : s.id = a.id <;> simp [h, ha]

theorem completed_kept_witness :
    List.Forall₂
      (fun (s t : JobStatusRow) => t.id = s.id ∧ (s.completed = true → t.completed = true))
      [⟨"job", "w", true, false, 100, 4, 0⟩]
      (updateJobStatus [⟨"job", "w", true, false, 100, 4, 0⟩]
        ⟨"job", "w", true, false, 200, 5, 0⟩) :=
  (completed_kept [⟨"job", "w", true, false, 100, 4, 0⟩] "job" []
    ⟨"job", "w", true, false, 200, 5, 0⟩).2.2.2 rfl

/-- C13, as stated, fails on the code: on a completed row whose owner and
`mod_count` the caller continues, `checkCanUpdate` succeeds (it does not read
`completed`), and `updateJobStatus` with `:completed = false` leaves the row
not completed. -/
theorem claim_resets_completed :
    checkCanUpdate [⟨"job", "t", "", 0, 0⟩] [⟨"job", "w", true, false, 100, 4, 0⟩]
        ⟨"job", "w", 5, 50⟩ = 1
      ∧ updateJobStatus [⟨"job", "w", true, false, 100, 4, 0⟩]
          ⟨"job", "w", false, true, 200, 5, 0⟩
        = [⟨"job", "w", false, true, 200, 5, 0⟩] := by
  decide

theorem notLower_trans (l1 l2 l3 : List JobStatusRow)
    (h1 : List.Forall₂ notLower l1 l2) (h2 : List.Forall₂ notLower l2 l3) :
    List.Forall₂ notLower l1 l3 := by
  induction h1 generalizing l3 with
  | nil => cases h2; exact List.Forall₂.nil
  | cons hab _ ih =>
    cases h2 with
    | cons hbc hrest =>
      exact List.Forall₂.cons ⟨hbc.1.trans hab.1, le_trans hab.2 hbc.2⟩ (ih _ hrest)

theorem notLower_ids (l1 l2 : List JobStatusRow) (h : List.Forall₂ notLower l1 l2) :
    l2.map JobStatusRow.id = l1.map JobStatusRow.id := by
  induction h with
  | nil => rfl
  | cons hab _ ih => simp [hab.1, ih]

/-- A successful check on a held lease went through branch (a): the stored
`mod_count` is the supplied one minus 1. -/
theorem held_lease_count (jobs : List JobsRow) (status : List JobStatusRow)
    (a : CanUpdateArgs)
    (hheld : ∀ s ∈ status, s.id = a.id → a.lock_timeout < s.mod_ts)
    (hok : 0 < checkCanUpdate jobs status a) :
    ∃ s ∈ status, s.id = a.id ∧ s.owner = a.owner ∧ s.mod_count = a.mod_count - 1 := by
  unfold checkCanUpdate at hok
  rw [List.length_pos_iff_exists_mem] at hok
  obtain ⟨r, hr⟩ := hok
  rw [List.mem_filter, mem_jobsJoinStatus] at hr
  obtain ⟨⟨_, hs, hid⟩, hwhere⟩ := hr
  simp only [checkCanUpdateWhere, Bool.and_eq_true, Bool.or_eq_true, decide_eq_true_eq]
    at hwhere
  obtain ⟨hrid, hcond⟩ := hwhere
  have hsid : r.2.id = a.id := hid.symm.trans hrid
  rcases hcond with ⟨⟨ho, hm⟩, _⟩ | hexp
  · exact ⟨r.2, hs, hsid, ho, hm⟩
  · have := hheld r.2 hs hsid
    omega

theorem keyed_row_unique (status : List JobStatusRow) (hk : statusKeyed status)
    (s t : JobStatusRow) (hs : s ∈ status) (ht : t ∈ status) (h : s.id = t.id) : s = t := by
  have h1 := filter_key_unique JobStatusRow.id status hk t ht
  have h2 : s ∈ status.filter (fun y => decide (y.id = t.id)) := by
    rw [List.mem_filter]; exact ⟨hs, by simpa using h⟩
  rw [h1] at h2
  simpa using h2

theorem applyStatusOp_notLower (jobs : List JobsRow) (status : List JobStatusRow)
    (op : StatusOp) (hk : statusKeyed status) (hheld : leasesHeld jobs status [op]) :
    List.Forall₂ notLower status (applyStatusOp jobs status op) := by
  cases op with
  | complete id =>
    show List.Forall₂ notLower status (completeSinglePendingJob status id)
    unfold completeSinglePendingJob
    apply forall2_map_self
    intro s _
    by_cases h : s.id = id
    · simp only [h, if_true, notLower, markCompleted]; exact ⟨trivial, by omega⟩
    · simp only [h, if_false, notLower]; exact ⟨trivial, le_refl _⟩
  | claim a lt =>
    show List.Forall₂ notLower status
      (if 0 < checkCanUpdate jobs status ⟨a.id, a.owner, a.mod_count, lt⟩ then
        updateJobStatus status a else status)
    by_cases hok : 0 < checkCanUpdate jobs status ⟨a.id, a.owner, a.mod_count, lt⟩
    · rw [if_pos hok]
      obtain ⟨s0, hs0, hid0, _, hm0⟩ :=
        held_lease_count jobs status ⟨a.id, a.owner, a.mod_count, lt⟩ hheld.1 hok
      unfold updateJobStatus
      apply forall2_map_self
      intro s hs
      by_cases h : s.id = a.id
      · have : s = s0 := keyed_row_unique status hk s s0 hs hs0 (h.trans hid0.symm)
        subst this
        simp only [h, if_true, notLower]
        simp only at hm0
        exact ⟨trivial, by omega⟩
      · simp only [h, if_false, notLower]; exact ⟨trivial, le_refl _⟩
    · rw [if_neg hok]
      apply List.forall₂_same.mpr
      intro s _
      exact ⟨rfl, le_refl _⟩

theorem applyStatusOps_notLower (jobs : List JobsRow) (ops : List StatusOp)
    (status : List JobStatusRow) (hk : statusKeyed status)
    (hheld : leasesHeld jobs status ops) :
    List.Forall₂ notLower status (applyStatusOps jobs status ops) := by
  induction ops generalizing status with
  | nil =>
    apply List.forall₂_same.mpr
    intro s _
    exact ⟨rfl, le_refl _⟩
  | cons op rest ih =>
    have h1 : leasesHeld jobs status [op] := by
      cases op with
      | claim a lt => exact ⟨hheld.1, trivial⟩
      | complete id => trivial
    have hstep := applyStatusOp_notLower jobs status op hk h1
    have hk2 : statusKeyed (applyStatusOp jobs status op) := by
      unfold statusKeyed
      rw [notLower_ids _ _ hstep]
      exact hk
    have h2 : leasesHeld jobs (applyStatusOp jobs status op) rest := by
      cases op with
      | claim a lt => exact hheld.2
      | complete id => exact hheld
    have hrest := ih (applyStatusOp jobs status op) hk2 h2
    unfold applyStatusOps at *
    rw [List.foldl_cons]
    exact notLower_trans _ _ _ hstep hrest

theorem unique_scope_row (scopes : List JobScopesRow) (hu : scopesUnique scopes)
    (r1 r2 : JobScopesRow) (h1 : r1 ∈ scopes) (h2 : r2 ∈ scopes) (h : r1.scope = r2.scope) :
    r1 = r2 :=
  List.inj_on_of_nodup_map hu h1 h2 h

theorem scopesUnique_remove (scopes : List JobScopesRow) (id : String)
    (hu : scopesUnique scopes) : scopesUnique (removeJobScopes scopes id) := by
  unfold scopesUnique removeJobScopes at *
  exact List.Nodup.sublist (List.Sublist.map _ (List.filter_sublist _)) hu

theorem scopesUnique_register (jobs : List JobsRow) (scopes t : List JobScopesRow)
    (id scope : String) (hu : scopesUnique scopes)
    (h : registerScope jobs scopes id scope = Except.ok t) : scopesUnique t := by
  unfold registerScope at h
  split at h
  · cases h
  · rename_i hfree
    split at h
    · cases h
      unfold scopesUnique at *
      rw [List.map_append, List.nodup_append]
      refine ⟨hu, List.nodup_singleton _, ?_⟩
      intro a ha hb
      simp only [List.map_cons, List.map_nil, List.mem_singleton] at hb
      subst hb
      exact hfree ha
    · cases h

theorem scopesUnique_applyScopeOp (jobs : List JobsRow) (scopes : List JobScopesRow)
    (op : ScopeOp) (hu : scopesUnique scopes) : scopesUnique (applyScopeOp jobs scopes op) := by
  cases op with
  | release id => exact scopesUnique_remove scopes id hu
  | register id scope =>
    show scopesUnique (match registerScope jobs scopes id scope with
      | Except.ok t => t
      | Except.error _ => scopes)
    cases h : registerScope jobs scopes id scope with
    | ok t => exact scopesUnique_register jobs scopes t id scope hu h
    | error e => exact hu

theorem scopesUnique_applyScopeOps (jobs : List JobsRow) (ops : List ScopeOp)
    (scopes : List JobScopesRow) (hu : scopesUnique scopes) :
    scopesUnique (applyScopeOps jobs scopes ops) := by
  induction ops generalizing scopes with
  | nil => exact hu
  | cons op rest ih =>
    unfold applyScopeOps at *
    rw [List.foldl_cons]
    exact ih _ (scopesUnique_applyScopeOp jobs scopes op hu)

/-- C17. In a `job_scopes` table obeying `UNIQUE(scope)` in which job `x`
holds scope `s`: registering `s` for a job `y` is rejected with a conflict;
after `removeJobScopes` for `x` the same registration succeeds; and after any
sequence of registrations and releases the table still obeys the constraint,
so any two rows with the same scope belong to the same job. -/
theorem scope_held_by_one_job (jobs : List JobsRow) (scopes : List JobScopesRow)
    (x y s : String) (hu : scopesUnique scopes) (hx : ⟨x, s⟩ ∈ scopes)
    (hy : y ∈ jobs.map JobsRow.id) :
    registerScope jobs scopes y s = Except.error ScopeError.conflict
      ∧ registerScope jobs (removeJobScopes scopes x) y s
          = Except.ok (removeJobScopes scopes x ++ [⟨y, s⟩])
      ∧ ∀ ops, scopesUnique (applyScopeOps jobs scopes ops)
          ∧ ∀ r1 ∈ applyScopeOps jobs scopes ops, ∀ r2 ∈ applyScopeOps jobs scopes ops,
              r1.scope = r2.scope → r1.id = r2.id := by
  refine ⟨?_, ?_, ?_⟩
  · have hs : s ∈ scopes.map JobScopesRow.scope := List.mem_map.mpr ⟨_, hx, rfl⟩
    simp [registerScope, hs]
  · have hfree : s ∉ (removeJobScopes scopes x).map JobScopesRow.scope := by
      intro hmem
      obtain ⟨r, hr, hrs⟩ := List.mem_map.mp hmem
      unfold removeJobScopes at hr
      rw [List.mem_filter] at hr
      have heq : r = ⟨x, s⟩ := unique_scope_row scopes hu r ⟨x, s⟩ hr.1 hx hrs
      rw [heq] at hr
      simp at hr
    simp only [registerScope, hfree, if_false, hy, if_true]
  · intro ops
    have h := scopesUnique_applyScopeOps jobs ops scopes hu
    refine ⟨h, ?_⟩
    intro r1 h1 r2 h2 hs
    rw [unique_scope_row _ h r1 r2 h1 h2 hs]

theorem scope_held_by_one_job_witness :
    registerScope [⟨"x", "t", "", 0, 0⟩, ⟨"y", "t", "", 0, 0⟩] [⟨"x", "db-lock"⟩] "y" "db-lock"
        = Except.error ScopeError.conflict
      ∧ registerScope [⟨"x", "t", "", 0, 0⟩, ⟨"y", "t", "", 0, 0⟩]
          (removeJobScopes [⟨"x", "db-lock"⟩] "x") "y" "db-lock"
        = Except.ok (removeJobScopes [⟨"x", "db-lock"⟩] "x" ++ [⟨"y", "db-lock"⟩]) :=
  ⟨(scope_held_by_one_job [⟨"x", "t", "", 0, 0⟩, ⟨"y", "t", "", 0, 0⟩] [⟨"x", "db-lock"⟩]
      "x" "y" "db-lock" (by decide) (by decide) (by decide)).1,
   (scope_held_by_one_job [⟨"x", "t", "", 0, 0⟩, ⟨"y", "t", "", 0, 0⟩] [⟨"x", "db-lock"⟩]
      "x" "y" "db-lock" (by decide) (by decide) (by decide)).2.1⟩

/-- C12, amended. In a keyed status table: (1) when `checkCanUpdate` succeeds
on a lease that has not expired, `updateJobStatus` with the same parameters
raises the stored `mod_count` of that job by exactly 1 and leaves the other
rows alone; (2) `completeSinglePendingJob` raises it by exactly 3; (3) over
any sequence of claims and completions in which no claim meets an expired
lease, no stored `mod_count` ever decreases. -/
theorem mod_count_grows (jobs : List JobsRow) (status : List JobStatusRow)
    (hsk : statusKeyed status) :
    (∀ (a : JobStatusRow) (lock_timeout : Int),
        (∀ s ∈ status, s.id = a.id → lock_timeout < s.mod_ts) →
        0 < checkCanUpdate jobs status ⟨a.id, a.owner, a.mod_count, lock_timeout⟩ →
        List.Forall₂
          (fun s t => t.id = s.id
            ∧ t.mod_count = if s.id = a.id then s.mod_count + 1 else s.mod_count)
          status (updateJobStatus status a))
      ∧ (∀ id : String,
        List.Forall₂
          (fun s t => t.id = s.id
            ∧ t.mod_count = if s.id = id then s.mod_count + 3 else s.mod_count)
          status (completeSinglePendingJob status id))
      ∧ ∀ ops : List StatusOp, leasesHeld jobs status ops →
        List.Forall₂ (fun s t => t.id = s.id ∧ s.mod_count ≤ t.mod_count)
          status (applyStatusOps jobs status ops) := by
  refine ⟨?_, ?_, ?_⟩
  · intro a lt hheld hok
    obtain ⟨s0, hs0, hid0, _, hm0⟩ :=
      held_lease_count jobs status ⟨a.id, a.owner, a.mod_count, lt⟩ hheld hok
    unfold updateJobStatus
    apply forall2_map_self
    intro s hs
    by_cases h : s.id = a.id
    · have : s = s0 := keyed_row_unique status hsk s s0 hs hs0 (h.trans hid0.symm)
      subst this
      simp only [h, if_true]
      simp only at hm0
      exact ⟨trivial, by omega⟩
    · simp only [h, if_false]; exact ⟨trivial, trivial⟩
  · intro id
    unfold completeSinglePendingJob
    apply forall2_map_self
    intro s _
    by_cases h : s.id = id
    · simp [h, markCompleted]
    · simp [h]
  · intro ops hheld
    exact applyStatusOps_notLower jobs ops status hsk hheld

theorem mod_count_grows_witness :
    List.Forall₂ (fun (s t : JobStatusRow) => t.id = s.id ∧ s.mod_count ≤ t.mod_count)
      [⟨"job", "w", false, true, 100, 4, 0⟩]
      (applyStatusOps [⟨"job", "t", "", 0, 0⟩] [⟨"job", "w", false, true, 100, 4, 0⟩]
        [StatusOp.claim ⟨"job", "w", false, true, 110, 5, 0⟩ 50, StatusOp.complete "job"]) :=
  (mod_count_grows [⟨"job", "t", "", 0, 0⟩] [⟨"job", "w", false, true, 100, 4, 0⟩]
    (by decide)).2.2
    [StatusOp.claim ⟨"job", "w", false, true, 110, 5, 0⟩ 50, StatusOp.complete "job"]
    (by
      refine ⟨?_, trivial⟩
      intro s hs _
      simp only [List.mem_singleton] at hs
      subst hs
      decide)

/-- C12, as stated, fails on the code at a steal: the lease has expired, so
`checkCanUpdate` succeeds whatever `mod_count` the caller supplies, and
`updateJobStatus` with the same parameters lowers the stored `mod_count` from
10 to 3. -/
theorem steal_lowers_mod_count :
    checkCanUpdate [⟨"job", "t", "", 0, 0⟩] [⟨"job", "w", false, true, 0, 10, 0⟩]
        ⟨"job", "thief", 3, 50⟩ = 1
      ∧ updateJobStatus [⟨"job", "w", false, true, 0, 10, 0⟩]
          ⟨"job", "thief", false, true, 60, 3, 0⟩
        = [⟨"job", "thief", false, true, 60, 3, 0⟩] := by
  decide

end pgq

end amboy
